import Mathlib

/-! # Sequence-dictionary compression (`try.cpp`)

A shallow embedding of the dictionary builder (`identifySequences`), the
substitution engine (`replaceSequences`), the pruning step
(`removeUnusedSequences`) and the driver (`main`) of `try.cpp`, followed by
theorems about them.

Modelling conventions.

* A line of the dataset is represented by the token list that
  `while (ss >> itemId)` extracts from it.  `replaceSequences` writes every output
  token followed by one blank, which the next pass reads back as the same token
  list, so a dataset is a list of token lists throughout.
* `int` tokens and codes are `Int`.  The counter `sequenceIndex` is only ever
  incremented; `identifySequencesInt` keeps it a 32-bit `int` whose increment wraps
  at `INT_MAX`, and `identifySequences` is the same function with the counter
  unbounded.  The two agree as long as the counter stays in range
  (`identifySequencesInt_eq`), which in the run of `main`, started at `0`, takes
  fewer than `2 ^ 31` distinct keys.
* `unordered_map<string,int>` is an association list in insertion order, looked up
  by key; `unordered_set<string>` is a list of keys, tested by membership.
* Loops whose cursor is changed by the body run on fuel and report `Fault.fuel`
  when it is exhausted; the checked accesses of the source report their own
  faults.
-/

namespace DMDW

/-- One line of the dataset, as its parsed tokens. -/
abbrev Transaction := List Int

/-- The in-memory dataset (`vector<string>`), one token list per line. -/
abbrev Dataset := List Transaction

/-- The dictionary `unordered_map<string, int>`: key string to code. -/
abbrev SequenceMap := List (String × Int)

/-- The used set `unordered_set<string>`. -/
abbrev UsedSet := List String

/-- The ways an execution of the substitution loop can fail to produce a value. -/
inductive Fault where
  /-- The lookup `sequenceMap.at(key)` on an absent key (`std::out_of_range`). -/
  | missingKey : Fault
  /-- An iterator range `[begin + i, begin + j)` that leaves the vector. -/
  | badRange : Fault
  /-- An index `items[i]` outside the vector. -/
  | badIndex : Fault
  /-- The loop was cut off before its condition became false. -/
  | fuel : Fault
  deriving DecidableEq

/-- The decimal text of an `int`, as `std::to_string` gives it. -/
def to_string (item : Int) : String := toString item

/-- The key of a sequence: `sequenceStr += to_string(item) + ","` for each item
(lines 68-72 and 103-107). -/
def sequenceStr (sequence : List Int) : String :=
  sequence.foldl (fun acc item => acc ++ (to_string item ++ ",")) ""

/-- The elements `v[i], ..., v[j-1]` of the range constructor
`vector<int>(v.begin() + i, v.begin() + j)`, without the bounds check. -/
def slice (v : List Int) (i j : Nat) : List Int := (v.drop i).take (j - i)

/-- The range constructor `vector<int>(v.begin() + i, v.begin() + j)`; the range
has to lie inside `v`. -/
def vecRange (v : List Int) (i j : Nat) : Except Fault (List Int) :=
  if j ≤ v.length then .ok (slice v i j) else .error .badRange

/-- The element access `v[i]`. -/
def vecGet (v : List Int) (i : Nat) : Except Fault Int :=
  match v.get? i with
  | some x => .ok x
  | none => .error .badIndex

/-- The lookup `sequenceMap.find(key)`: the code of `key`, if it has an entry. -/
def find (sequenceMap : SequenceMap) (key : String) : Option Int :=
  sequenceMap.lookup key

/-- The throwing lookup `sequenceMap.at(key)`. -/
def mapAt (sequenceMap : SequenceMap) (key : String) : Except Fault Int :=
  match sequenceMap.lookup key with
  | some code => .ok code
  | none => .error .missingKey

/-- The body of the window loop of `identifySequences` (lines 65-78) at offset `i`:
the key of the window is inserted with the next code unless it is present. -/
def identifyWindow (transaction : List Int) (sequenceLength : Nat)
    (st : SequenceMap × Int) (i : Nat) : SequenceMap × Int :=
  let key := sequenceStr (slice transaction i (i + sequenceLength))
  match find st.1 key with
  | none => (st.1 ++ [(key, st.2)], st.2 + 1)
  | some _ => st

/-- The window loop `for (i = 0; i + sequenceLength <= transaction.size(); ++i)`
of one transaction (lines 63-79). -/
def identifyTransaction (sequenceLength : Nat) (st : SequenceMap × Int)
    (transaction : Transaction) : SequenceMap × Int :=
  (List.range (transaction.length + 1 - sequenceLength)).foldl
    (identifyWindow transaction sequenceLength) st

/-- The function `identifySequences` (lines 48-81): the dictionary and the counter
after all transactions have been scanned. -/
def identifySequences (dataset : Dataset) (sequenceMap : SequenceMap)
    (sequenceLength : Nat) (sequenceIndex : Int) : SequenceMap × Int :=
  dataset.foldl (identifyTransaction sequenceLength) (sequenceMap, sequenceIndex)

/-- The largest value of an `int`. -/
def INT_MAX : Int := 2147483647

/-- The smallest value of an `int`. -/
def INT_MIN : Int := -2147483648

/-- The `int` that holds an arithmetic result: 32 bits, two's complement. -/
def wrapInt (x : Int) : Int := (x + 2147483648) % 4294967296 - 2147483648

/-- The body of the window loop of `identifySequences` (lines 65-78) at offset `i`,
with `sequenceIndex++` computed in `int`. -/
def identifyWindowInt (transaction : List Int) (sequenceLength : Nat)
    (st : SequenceMap × Int) (i : Nat) : SequenceMap × Int :=
  let key := sequenceStr (slice transaction i (i + sequenceLength))
  match find st.1 key with
  | none => (st.1 ++ [(key, st.2)], wrapInt (st.2 + 1))
  | some _ => st

/-- The window loop of one transaction (lines 63-79), the counter an `int`. -/
def identifyTransactionInt (sequenceLength : Nat) (st : SequenceMap × Int)
    (transaction : Transaction) : SequenceMap × Int :=
  (List.range (transaction.length + 1 - sequenceLength)).foldl
    (identifyWindowInt transaction sequenceLength) st

/-- The function `identifySequences` (lines 48-81), the counter an `int`. -/
def identifySequencesInt (dataset : Dataset) (sequenceMap : SequenceMap)
    (sequenceLength : Nat) (sequenceIndex : Int) : SequenceMap × Int :=
  dataset.foldl (identifyTransactionInt sequenceLength) (sequenceMap, sequenceIndex)

/-- The state of the cursor loop of `replaceSequences`: the cursor `i`, the tokens
written to `newTransaction`, and the used set. -/
structure LoopState where
  /-- The cursor `i`. -/
  i : Nat
  /-- The tokens written to `newTransaction` so far. -/
  out : List Int
  /-- The used set `usedSequences`. -/
  used : UsedSet
  deriving DecidableEq

/-- One iteration of the cursor loop of `replaceSequences` (lines 100-123) followed
by the loop increment `++i`.  On a match the body adds `sequenceLength - 1` to the
cursor and the increment adds one more, `sequenceLength` in all. -/
def replaceStep (sequenceMap : SequenceMap) (sequenceLength : Nat) (items : List Int)
    (st : LoopState) : Except Fault LoopState :=
  if st.i + sequenceLength ≤ items.length then
    match vecRange items st.i (st.i + sequenceLength) with
    | .error e => .error e
    | .ok sequence =>
      let key := sequenceStr sequence
      if (find sequenceMap key).isSome then
        match mapAt sequenceMap key with
        | .error e => .error e
        | .ok code =>
          .ok { i := st.i + sequenceLength, out := st.out ++ [code],
                used := List.insert key st.used }
      else
        match vecGet items st.i with
        | .error e => .error e
        | .ok item => .ok { i := st.i + 1, out := st.out ++ [item], used := st.used }
  else
    match vecGet items st.i with
    | .error e => .error e
    | .ok item => .ok { i := st.i + 1, out := st.out ++ [item], used := st.used }

/-- The cursor loop `for (i = 0; i < items.size(); ++i)` of `replaceSequences`
(lines 98-124), cut off after `fuel` iterations. -/
def replaceLoop (sequenceMap : SequenceMap) (sequenceLength : Nat) (items : List Int) :
    Nat → LoopState → Except Fault LoopState
  | 0, _ => .error .fuel
  | fuel + 1, st =>
    if st.i < items.length then
      match replaceStep sequenceMap sequenceLength items st with
      | .error e => .error e
      | .ok st' => replaceLoop sequenceMap sequenceLength items fuel st'
    else .ok st

/-- The body of the transaction loop of `replaceSequences` (lines 88-126): the
rewritten transaction and the used set after it. -/
def replaceTransaction (sequenceMap : SequenceMap) (sequenceLength : Nat)
    (items : Transaction) (usedSequences : UsedSet) : Except Fault (Transaction × UsedSet) :=
  match replaceLoop sequenceMap sequenceLength items (items.length + 1)
      { i := 0, out := [], used := usedSequences } with
  | .error e => .error e
  | .ok st => .ok (st.out, st.used)

/-- The function `replaceSequences` (lines 84-128): every transaction of the dataset
is rewritten in turn, the used set being threaded through. -/
def replaceSequences : Dataset → SequenceMap → Nat → UsedSet →
    Except Fault (Dataset × UsedSet)
  | [], _, _, usedSequences => .ok ([], usedSequences)
  | transaction :: rest, sequenceMap, sequenceLength, usedSequences =>
    match replaceTransaction sequenceMap sequenceLength transaction usedSequences with
    | .error e => .error e
    | .ok (transaction', used') =>
      match replaceSequences rest sequenceMap sequenceLength used' with
      | .error e => .error e
      | .ok (rest', used'') => .ok (transaction' :: rest', used'')

/-- The function `removeUnusedSequences` (lines 181-194): the entries are visited in
turn and an entry whose key is not in the used set is erased. -/
def removeUnusedSequences : SequenceMap → UsedSet → SequenceMap
  | [], _ => []
  | entry :: rest, usedSequences =>
    if entry.1 ∈ usedSequences then entry :: removeUnusedSequences rest usedSequences
    else removeUnusedSequences rest usedSequences

/-- The three build passes of `main` (lines 207-213): lengths 5, 4, 3 on the
original dataset with the shared counter, starting from the empty dictionary and
counter 0.  The results after each pass are returned. -/
def buildPasses (dataset : Dataset) :
    (SequenceMap × Int) × (SequenceMap × Int) × (SequenceMap × Int) :=
  let s5 := identifySequences dataset [] 5 0
  let s4 := identifySequences dataset s5.1 4 s5.2
  let s3 := identifySequences dataset s4.1 3 s4.2
  (s5, s4, s3)

/-- The dictionary when the build passes of `main` are done. -/
def builtMap (dataset : Dataset) : SequenceMap := (buildPasses dataset).2.2.1

/-- What `main` holds when it reaches the save calls. -/
structure MainResult where
  /-- The dataset after the length-5 substitution pass. -/
  after5 : Dataset
  /-- The dataset after the length-4 substitution pass. -/
  after4 : Dataset
  /-- The dataset after the length-3 substitution pass, which is saved. -/
  updated : Dataset
  /-- The used set after the three passes. -/
  usedSequences : UsedSet
  /-- The dictionary after pruning, which is saved. -/
  sequenceMap : SequenceMap
  deriving DecidableEq

/-- The pipeline of `main` (lines 207-221) on a dataset that has been read: three
build passes, three substitution passes each on the previous one's output, and
pruning. -/
def mainPipeline (dataset : Dataset) : Except Fault MainResult :=
  let sequenceMap := builtMap dataset
  match replaceSequences dataset sequenceMap 5 [] with
  | .error e => .error e
  | .ok (d5, u5) =>
    match replaceSequences d5 sequenceMap 4 u5 with
    | .error e => .error e
    | .ok (d4, u4) =>
      match replaceSequences d4 sequenceMap 3 u4 with
      | .error e => .error e
      | .ok (d3, u3) =>
        .ok { after5 := d5, after4 := d4, updated := d3, usedSequences := u3,
              sequenceMap := removeUnusedSequences sequenceMap u3 }


/-- The code found for the window at cursor `i`, when a whole window is left there
and its key has an entry: the condition under which `replaceSequences` emits a
code. -/
def matchAt (sequenceMap : SequenceMap) (sequenceLength : Nat) (items : List Int)
    (i : Nat) : Option Int :=
  if i + sequenceLength ≤ items.length then
    find sequenceMap (sequenceStr (slice items i (i + sequenceLength)))
  else none

/-- The state after one iteration of the cursor loop when no access fails. -/
def stepState (sequenceMap : SequenceMap) (sequenceLength : Nat) (items : List Int)
    (st : LoopState) : LoopState :=
  match matchAt sequenceMap sequenceLength items st.i with
  | some code =>
    { i := st.i + sequenceLength, out := st.out ++ [code],
      used := List.insert (sequenceStr (slice items st.i (st.i + sequenceLength))) st.used }
  | none => { i := st.i + 1, out := st.out ++ [items.getD st.i 0], used := st.used }

/-- The reference rewrite of the tokens left at the cursor, in the words of the
specification: if at least `L` tokens remain and the key of the next `L` tokens is
in the dictionary, emit its code and advance by `L`; otherwise emit the token at the
cursor and advance by one; stop at the end.  The first argument bounds the number
of emitted tokens. -/
def greedyFrom (sequenceMap : SequenceMap) (L : Nat) : Nat → List Int → List Int
  | 0, _ => []
  | _ + 1, [] => []
  | fuel + 1, x :: rest =>
    if L ≤ (x :: rest).length then
      match find sequenceMap (sequenceStr ((x :: rest).take L)) with
      | some code => code :: greedyFrom sequenceMap L fuel ((x :: rest).drop L)
      | none => x :: greedyFrom sequenceMap L fuel rest
    else x :: greedyFrom sequenceMap L fuel rest

/-- The greedy leftmost-first reference rewrite of a transaction. -/
def greedyRewrite (sequenceMap : SequenceMap) (L : Nat) (items : List Int) : List Int :=
  greedyFrom sequenceMap L items.length items

/-- The keys of the windows of one transaction, at the offsets `0 .. len - L` from
left to right. -/
def windowKeys (L : Nat) (transaction : Transaction) : List String :=
  (List.range (transaction.length + 1 - L)).map
    fun i => sequenceStr (slice transaction i (i + L))

/-- The keys of all windows of the dataset in the order of the scan: transactions in
dataset order, windows from left to right. -/
def datasetKeys (dataset : Dataset) (L : Nat) : List String :=
  dataset.flatMap (windowKeys L)

/-- The keys of a scan that are not present already, each listed once, in the order
in which they are first encountered. -/
def firstSeen : List String → List String → List String
  | _, [] => []
  | present, key :: keys =>
    if key ∈ present then firstSeen present keys
    else key :: firstSeen (present ++ [key]) keys

/-- The keys `k_0, ..., k_(m-1)` an `identifySequences` invocation meets that are not
in the dictionary already, in first-seen order. -/
def newKeys (dataset : Dataset) (sequenceMap : SequenceMap) (L : Nat) : List String :=
  firstSeen (sequenceMap.map Prod.fst) (datasetKeys dataset L)

/-- Consecutive codes from `s` on for a list of keys. -/
def assignCodes : Int → List String → SequenceMap
  | _, [] => []
  | s, key :: keys => (key, s) :: assignCodes (s + 1) keys

/-- The update of dictionary and counter for one window key (lines 75-78). -/
def insertKey (st : SequenceMap × Int) (key : String) : SequenceMap × Int :=
  match find st.1 key with
  | none => (st.1 ++ [(key, st.2)], st.2 + 1)
  | some _ => st

/-- The update of dictionary and counter for one window key (lines 75-78), the
counter an `int`. -/
def insertKeyInt (st : SequenceMap × Int) (key : String) : SequenceMap × Int :=
  match find st.1 key with
  | none => (st.1 ++ [(key, st.2)], wrapInt (st.2 + 1))
  | some _ => st

/-- No two distinct keys of the dictionary have the same code. -/
def CodeInjective (sequenceMap : SequenceMap) : Prop :=
  ∀ k₁ k₂ c, find sequenceMap k₁ = some c → find sequenceMap k₂ = some c → k₁ = k₂

/-- The keys of the dictionary are pairwise distinct and its codes, in insertion
order, are `0, ..., sequenceIndex - 1`. -/
def WellNumbered (sequenceMap : SequenceMap) (sequenceIndex : Int) : Prop :=
  (sequenceMap.map Prod.fst).Nodup ∧
    ∃ n : Nat, sequenceIndex = (n : Int) ∧
      sequenceMap.map Prod.snd = (List.range n).map Int.ofNat

/-- The states at the head of the cursor loop of `replaceSequences`, from the given
state until the loop condition fails (or an iteration faults, or the fuel is
spent). -/
def replaceTrace (sequenceMap : SequenceMap) (sequenceLength : Nat) (items : List Int) :
    Nat → LoopState → List LoopState
  | 0, st => [st]
  | fuel + 1, st =>
    if st.i < items.length then
      match replaceStep sequenceMap sequenceLength items st with
      | .error _ => [st]
      | .ok st' => st :: replaceTrace sequenceMap sequenceLength items fuel st'
    else [st]

/-- The values the cursor `i` takes at the head of the loop while one transaction is
rewritten, the final value included. -/
def cursorList (sequenceMap : SequenceMap) (sequenceLength : Nat) (items : List Int)
    (usedSequences : UsedSet) : List Nat :=
  (replaceTrace sequenceMap sequenceLength items (items.length + 1)
    { i := 0, out := [], used := usedSequences }).map fun st => st.i

/-- The number of input positions consumed by the iteration at cursor `i`: the
window length on a match, one otherwise. -/
def widthAt (sequenceMap : SequenceMap) (sequenceLength : Nat) (items : List Int)
    (i : Nat) : Nat :=
  if (matchAt sequenceMap sequenceLength items i).isSome then sequenceLength else 1

/-- The token written by the iteration at cursor `i`: the code on a match, the token
at the cursor otherwise. -/
def tokenAt (sequenceMap : SequenceMap) (sequenceLength : Nat) (items : List Int)
    (i : Nat) : Int :=
  (matchAt sequenceMap sequenceLength items i).getD (items.getD i 0)

/-- The cursor values of the loop from cursor `i` on, computed from the loop control
alone. -/
def cursorsFrom (sequenceMap : SequenceMap) (sequenceLength : Nat) (items : List Int) :
    Nat → Nat → List Nat
  | 0, i => [i]
  | fuel + 1, i =>
    if i < items.length then
      i :: cursorsFrom sequenceMap sequenceLength items fuel
        (i + widthAt sequenceMap sequenceLength items i)
    else [i]

/-- The value of a decimal digit character. -/
def digitValue (c : Char) : Nat := c.toNat - 48

/-- The items spelled by the characters of a key: a comma ends an item, a minus sign
makes the item being read negative, any other character is the next decimal digit of
its magnitude. -/
def parseItems : List Char → Bool → Nat → List Int
  | [], _, _ => []
  | c :: cs, negative, acc =>
    if c = ',' then
      (if negative then -(acc : Int) else (acc : Int)) :: parseItems cs false 0
    else if c = '-' then parseItems cs true acc
    else parseItems cs negative (10 * acc + digitValue c)

/-- The items of a dictionary key. -/
def keyItems (key : String) : List Int := parseItems key.data false 0

/-- The decoding of one token of a rewritten transaction: a token that is the code
of a dictionary entry stands for the items of that entry's key, any other token for
itself. -/
def decodeToken (sequenceMap : SequenceMap) (token : Int) : List Int :=
  match sequenceMap.find? (fun entry => entry.2 == token) with
  | some entry => keyItems entry.1
  | none => [token]

/-- The decoding of a rewritten transaction: every code token is replaced by the
items of its key and the results are concatenated. -/
def decode (sequenceMap : SequenceMap) (tokens : List Int) : List Int :=
  tokens.flatMap (decodeToken sequenceMap)

/-- No item identifier of the dataset equals a code assigned by the three build
passes. -/
def NoCollision (dataset : Dataset) : Prop :=
  ∀ t ∈ dataset, ∀ x ∈ t, ∀ entry ∈ builtMap dataset, entry.2 ≠ x

/-- The pass with window length `L` over `items` visits cursor `a` and writes the
code `c` there. -/
def EmitsCode (sequenceMap : SequenceMap) (L : Nat) (items : List Int) (a : Nat)
    (c : Int) : Prop :=
  a ∈ cursorList sequenceMap L items [] ∧ matchAt sequenceMap L items a = some c

/-- The items spelled by the keys of the dictionary are not codes of the
dictionary. -/
def KeysAvoidCodes (sequenceMap : SequenceMap) : Prop :=
  ∀ entry ∈ sequenceMap, ∀ x ∈ keyItems entry.1, ∀ entry' ∈ sequenceMap, entry'.2 ≠ x

/-- The dictionary has an entry for the key of every window of length `L` of the
dataset. -/
def CoversWindows (dataset : Dataset) (L : Nat) (sequenceMap : SequenceMap) : Prop :=
  ∀ t ∈ dataset, ∀ i, i + L ≤ t.length →
    (find sequenceMap (sequenceStr (slice t i (i + L)))).isSome

/-- The numbers `analyzeSizeReduction` prints, apart from the percentage (a
floating-point value, which is left out). -/
structure SizeReport where
  /-- The line `Original size`. -/
  originalSize : Nat
  /-- The line `Reduced size`. -/
  reducedSize : Nat
  /-- The line `Size reduction`. -/
  sizeReduction : Nat
  deriving DecidableEq

/-- The function `analyzeSizeReduction` (lines 131-144) on the three byte sizes that
`stat` delivers (each below `2 ^ 64`): `reducedSize = mapSize + updatedSize` and the
printed difference `originalSize - reducedSize` are computed in `size_t`, that is
modulo `2 ^ 64`. -/
def analyzeSizeReduction (originalSize mapSize updatedSize : Nat) : SizeReport :=
  let reducedSize := (mapSize + updatedSize) % 2 ^ 64
  { originalSize := originalSize,
    reducedSize := reducedSize,
    sizeReduction := (originalSize + 2 ^ 64 - reducedSize) % 2 ^ 64 }

/-- The number of bytes `saveSequenceMap` (lines 156-159) writes: for every entry the
key, a blank, the code and a line end. -/
def mapFileSize (sequenceMap : SequenceMap) : Nat :=
  (sequenceMap.map fun entry => entry.1.length + 1 + (to_string entry.2).length + 1).sum

/-- The number of bytes `saveUpdatedDataset` (lines 173-176) writes: for every
transaction its tokens, each followed by a blank (line 111, 117, 122), and a line
end. -/
def datasetFileSize (dataset : Dataset) : Nat :=
  (dataset.map fun transaction =>
    (transaction.map fun token => (to_string token).length + 1).sum + 1).sum

/-! # Theorems -/

/-! ## The cursor loop -/

theorem slice_eq (v : List Int) (i L : Nat) : slice v i (i + L) = (v.drop i).take L := by
  simp [slice]

theorem replaceStep_eq (m : SequenceMap) (L : Nat) (items : List Int) (st : LoopState)
    (h : st.i < items.length) :
    replaceStep m L items st = .ok (stepState m L items st) := by
  have hget : vecGet items st.i = .ok (items.getD st.i 0) := by
    simp [vecGet, List.getD, List.getElem?_eq_getElem h]
  unfold replaceStep stepState matchAt
  by_cases hL : st.i + L ≤ items.length
  · simp only [hL, if_true, vecRange]
    cases hf : find m (sequenceStr (slice items st.i (st.i + L))) with
    | none => simp [hget]
    | some c =>
      have : mapAt m (sequenceStr (slice items st.i (st.i + L))) = .ok c := by
        unfold find at hf
        simp [mapAt, hf]
      simp [this]
  · simp [hL, hget]

theorem replaceLoop_succ (m : SequenceMap) (L : Nat) (items : List Int) (fuel : Nat)
    (st : LoopState) :
    replaceLoop m L items (fuel + 1) st =
      if st.i < items.length then replaceLoop m L items fuel (stepState m L items st)
      else .ok st := by
  by_cases h : st.i < items.length
  · simp [replaceLoop, h, replaceStep_eq m L items st h]
  · simp [replaceLoop, h]

theorem stepState_some (m : SequenceMap) (L : Nat) (items : List Int) (st : LoopState)
    (c : Int) (h : matchAt m L items st.i = some c) :
    stepState m L items st =
      ⟨st.i + L, st.out ++ [c], List.insert (sequenceStr ((items.drop st.i).take L)) st.used⟩ := by
  simp [stepState, h, slice_eq]

theorem stepState_none (m : SequenceMap) (L : Nat) (items : List Int) (st : LoopState)
    (h : matchAt m L items st.i = none) :
    stepState m L items st = ⟨st.i + 1, st.out ++ [items.getD st.i 0], st.used⟩ := by
  simp [stepState, h]

theorem drop_eq_getD_cons (items : List Int) (i : Nat) (h : i < items.length) :
    items.drop i = items.getD i 0 :: items.drop (i + 1) := by
  rw [List.getD_eq_getElem _ _ h]
  exact List.drop_eq_getElem_cons h

theorem greedyFrom_fuel (m : SequenceMap) (L : Nat) (hL : 1 ≤ L) :
    ∀ (fuel : Nat) (rest : List Int), rest.length ≤ fuel →
      greedyFrom m L fuel rest = greedyFrom m L rest.length rest := by
  intro fuel
  induction fuel using Nat.strong_induction_on with
  | _ fuel ih =>
    intro rest hlen
    cases rest with
    | nil => cases fuel <;> simp [greedyFrom]
    | cons x xs =>
      cases fuel with
      | zero => simp at hlen
      | succ f =>
        have hxs : xs.length ≤ f := by simpa using hlen
        have hd : ((x :: xs).drop L).length ≤ xs.length := by
          simp only [List.length_drop, List.length_cons]; omega
        simp only [List.length_cons, greedyFrom]
        rw [ih f (Nat.lt_succ_self f) xs hxs,
          ih f (Nat.lt_succ_self f) _ (le_trans hd hxs),
          ih xs.length (by omega) _ hd]

/-- Unfolding of the reference rewrite at a cursor where a window matches. -/
theorem greedyFrom_drop_some (m : SequenceMap) (L : Nat) (hL : 1 ≤ L) (items : List Int)
    (i : Nat) (c : Int) (h : matchAt m L items i = some c) :
    greedyFrom m L (items.length - i) (items.drop i) =
      c :: greedyFrom m L (items.length - (i + L)) (items.drop (i + L)) := by
  unfold matchAt at h
  by_cases hw : i + L ≤ items.length
  · rw [if_pos hw, slice_eq] at h
    obtain ⟨k, hk⟩ : ∃ k, items.length - i = k + 1 := ⟨items.length - i - 1, by omega⟩
    have hLle : L ≤ (items.getD i 0 :: items.drop (i + 1)).length := by
      simp only [List.length_cons, List.length_drop]; omega
    have hfuel := greedyFrom_fuel m L hL k (items.drop (i + L))
      (by simp only [List.length_drop]; omega)
    rw [List.length_drop] at hfuel
    rw [hk, drop_eq_getD_cons items i (by omega), greedyFrom, if_pos hLle,
      ← drop_eq_getD_cons items i (by omega), h]
    simp only [List.drop_drop]
    rw [hfuel]
  · rw [if_neg hw] at h; cases h

/-- Unfolding of the reference rewrite at a cursor where no window matches. -/
theorem greedyFrom_drop_none (m : SequenceMap) (L : Nat) (items : List Int)
    (i : Nat) (hi : i < items.length) (h : matchAt m L items i = none) :
    greedyFrom m L (items.length - i) (items.drop i) =
      items.getD i 0 :: greedyFrom m L (items.length - (i + 1)) (items.drop (i + 1)) := by
  unfold matchAt at h
  obtain ⟨k, hk⟩ : ∃ k, items.length - i = k + 1 := ⟨items.length - i - 1, by omega⟩
  have hk' : items.length - (i + 1) = k := by omega
  rw [hk, hk', drop_eq_getD_cons items i hi, greedyFrom, ← drop_eq_getD_cons items i hi]
  by_cases hw : i + L ≤ items.length
  · rw [if_pos hw, slice_eq] at h
    have hLle : L ≤ (items.drop i).length := by
      simp only [List.length_drop]; omega
    rw [if_pos hLle, h]
  · have hLle : ¬ L ≤ (items.drop i).length := by
      simp only [List.length_drop]; omega
    rw [if_neg hLle]

theorem replaceLoop_greedy (m : SequenceMap) (L : Nat) (hL : 1 ≤ L) (items : List Int) :
    ∀ (fuel : Nat) (st : LoopState), st.i ≤ items.length → items.length - st.i < fuel →
      ∃ used, replaceLoop m L items fuel st =
        .ok ⟨items.length,
          st.out ++ greedyFrom m L (items.length - st.i) (items.drop st.i), used⟩ := by
  intro fuel
  induction fuel with
  | zero => intro st _ h; omega
  | succ f ih =>
    intro st hi hf
    rw [replaceLoop_succ]
    by_cases hlt : st.i < items.length
    · rw [if_pos hlt]
      cases hm : matchAt m L items st.i with
      | none =>
        rw [stepState_none m L items st hm, greedyFrom_drop_none m L items st.i hlt hm]
        obtain ⟨u, hu⟩ := ih ⟨st.i + 1, st.out ++ [items.getD st.i 0], st.used⟩
          (by simpa using hlt) (by simp only []; omega)
        exact ⟨u, by simpa using hu⟩
      | some c =>
        have hw : st.i + L ≤ items.length := by
          unfold matchAt at hm
          by_contra hw
          rw [if_neg hw] at hm; cases hm
        rw [stepState_some m L items st c hm, greedyFrom_drop_some m L hL items st.i c hm]
        obtain ⟨u, hu⟩ := ih ⟨st.i + L, st.out ++ [c],
          List.insert (sequenceStr ((items.drop st.i).take L)) st.used⟩
          (by simpa using hw) (by simp only []; omega)
        exact ⟨u, by simpa using hu⟩
    · have hi' : st.i = items.length := by omega
      refine ⟨st.used, ?_⟩
      rw [if_neg hlt, hi']
      cases st
      simp_all [greedyFrom]

theorem replaceTransaction_greedy (m : SequenceMap) (L : Nat) (items : Transaction)
    (used : UsedSet) (hL : 1 ≤ L) :
    ∃ used', replaceTransaction m L items used = .ok (greedyRewrite m L items, used') := by
  obtain ⟨u, hu⟩ := replaceLoop_greedy m L hL items (items.length + 1)
    ⟨0, [], used⟩ (Nat.zero_le _) (by simp)
  exact ⟨u, by simp [replaceTransaction, hu, greedyRewrite]⟩

/-- C1: for every dictionary, every window length `L ≥ 1` and every dataset,
`replaceSequences` returns, and the token sequence it produces for each transaction
is the greedy leftmost-first reference rewrite of that transaction. -/
theorem replaceSequences_eq_greedyRewrite (m : SequenceMap) (L : Nat) (hL : 1 ≤ L) :
    ∀ (dataset : Dataset) (used : UsedSet),
      ∃ used', replaceSequences dataset m L used =
        .ok (dataset.map (greedyRewrite m L), used') := by
  intro dataset
  induction dataset with
  | nil => intro used; exact ⟨used, rfl⟩
  | cons t rest ih =>
    intro used
    obtain ⟨u₁, h₁⟩ := replaceTransaction_greedy m L t used hL
    obtain ⟨u₂, h₂⟩ := ih u₁
    exact ⟨u₂, by simp [replaceSequences, h₁, h₂]⟩

theorem replaceSequences_eq_greedyRewrite_witness :
    ∃ used', replaceSequences [[1, 2, 3, 4, 5, 1, 2, 3, 4, 5], [7, 1, 2, 3, 4, 5]]
        [("1,2,3,4,5,", 0)] 5 [] =
      .ok ([[1, 2, 3, 4, 5, 1, 2, 3, 4, 5], [7, 1, 2, 3, 4, 5]].map
        (greedyRewrite [("1,2,3,4,5,", 0)] 5), used') :=
  replaceSequences_eq_greedyRewrite [("1,2,3,4,5,", 0)] 5 (by decide)
    [[1, 2, 3, 4, 5, 1, 2, 3, 4, 5], [7, 1, 2, 3, 4, 5]] []

/-! ## The dictionary builder -/

theorem find_eq_none_iff (m : SequenceMap) (k : String) :
    find m k = none ↔ k ∉ m.map Prod.fst := by
  unfold find
  induction m with
  | nil => simp
  | cons e m ih =>
    obtain ⟨a, b⟩ := e
    by_cases h : k = a
    · subst h; simp [List.lookup_cons]
    · have : (k == a) = false := by simpa using h
      simp [List.lookup_cons, this, ih, h]

theorem mem_of_find (m : SequenceMap) (k : String) (c : Int) (h : find m k = some c) :
    (k, c) ∈ m := by
  unfold find at h
  obtain ⟨l₁, l₂, rfl, _⟩ := List.lookup_eq_some_iff.mp h
  simp

theorem find_of_mem (m : SequenceMap) (hnd : (m.map Prod.fst).Nodup) (k : String) (c : Int)
    (h : (k, c) ∈ m) : find m k = some c := by
  unfold find
  induction m with
  | nil => simp at h
  | cons e m ih =>
    obtain ⟨a, b⟩ := e
    simp only [List.map_cons, List.nodup_cons] at hnd
    rcases List.mem_cons.mp h with heq | hmem
    · cases heq; simp [List.lookup_cons]
    · have hka : k ≠ a := by
        rintro rfl
        exact hnd.1 (List.mem_map.mpr ⟨(k, c), hmem, rfl⟩)
      have : (k == a) = false := by simpa using hka
      simp [List.lookup_cons, this, ih hnd.2 hmem]

theorem find_append (m₁ m₂ : SequenceMap) (k : String) :
    find (m₁ ++ m₂) k = (find m₁ k).or (find m₂ k) := by
  unfold find; exact List.lookup_append

theorem identifyTransaction_eq (L : Nat) (st : SequenceMap × Int) (t : Transaction) :
    identifyTransaction L st t = (windowKeys L t).foldl insertKey st := by
  unfold identifyTransaction windowKeys
  rw [List.foldl_map]
  rfl

theorem identifySequences_eq (dataset : Dataset) (m : SequenceMap) (L : Nat) (s : Int) :
    identifySequences dataset m L s = (datasetKeys dataset L).foldl insertKey (m, s) := by
  unfold identifySequences datasetKeys
  generalize (m, s) = st
  induction dataset generalizing st with
  | nil => rfl
  | cons t rest ih =>
    simp only [List.foldl_cons, List.flatMap_cons, List.foldl_append]
    rw [ih, identifyTransaction_eq]

theorem foldl_insertKey (keys : List String) :
    ∀ (m : SequenceMap) (s : Int),
      keys.foldl insertKey (m, s) =
        (m ++ assignCodes s (firstSeen (m.map Prod.fst) keys),
          s + ((firstSeen (m.map Prod.fst) keys).length : Nat)) := by
  induction keys with
  | nil => intro m s; simp [firstSeen, assignCodes]
  | cons k ks ih =>
    intro m s
    rw [List.foldl_cons]
    by_cases hk : k ∈ m.map Prod.fst
    · obtain ⟨c, hc⟩ : ∃ c, find m k = some c := by
        cases h : find m k with
        | none => exact absurd hk ((find_eq_none_iff m k).mp h)
        | some c => exact ⟨c, rfl⟩
      have : insertKey (m, s) k = (m, s) := by simp [insertKey, hc]
      rw [this, ih, firstSeen, if_pos hk]
    · have hn : find m k = none := (find_eq_none_iff m k).mpr hk
      have : insertKey (m, s) k = (m ++ [(k, s)], s + 1) := by simp [insertKey, hn]
      rw [this, ih, firstSeen, if_neg hk]
      simp only [List.map_append, List.map_cons, List.map_nil, assignCodes, List.length_cons,
        List.append_assoc, List.singleton_append, Prod.mk.injEq, true_and]
      push_cast
      ring

theorem mem_firstSeen (keys : List String) :
    ∀ (present : List String) (k : String),
      k ∈ firstSeen present keys ↔ k ∈ keys ∧ k ∉ present := by
  induction keys with
  | nil => intro present k; simp [firstSeen]
  | cons a ks ih =>
    intro present k
    rw [firstSeen]
    by_cases ha : a ∈ present
    · rw [if_pos ha, ih]
      constructor
      · rintro ⟨h1, h2⟩; exact ⟨List.mem_cons_of_mem _ h1, h2⟩
      · rintro ⟨h1, h2⟩
        rcases List.mem_cons.mp h1 with rfl | h
        · exact absurd ha h2
        · exact ⟨h, h2⟩
    · rw [if_neg ha, List.mem_cons, ih]
      have hsimp : k ∉ present ++ [a] ↔ k ∉ present ∧ k ≠ a := by simp
      rw [hsimp]
      constructor
      · rintro (rfl | ⟨h1, h2, _⟩)
        · exact ⟨List.mem_cons_self _ _, ha⟩
        · exact ⟨List.mem_cons_of_mem _ h1, h2⟩
      · rintro ⟨h1, h2⟩
        by_cases hka : k = a
        · exact Or.inl hka
        · rcases List.mem_cons.mp h1 with h | h
          · exact absurd h hka
          · exact Or.inr ⟨h, h2, hka⟩

theorem nodup_firstSeen (keys : List String) :
    ∀ present : List String, (firstSeen present keys).Nodup := by
  induction keys with
  | nil => intro present; simp [firstSeen]
  | cons a ks ih =>
    intro present
    rw [firstSeen]
    by_cases ha : a ∈ present
    · rw [if_pos ha]; exact ih present
    · rw [if_neg ha, List.nodup_cons]
      refine ⟨?_, ih _⟩
      rw [mem_firstSeen]
      simp

theorem map_fst_assignCodes (ks : List String) :
    ∀ s : Int, (assignCodes s ks).map Prod.fst = ks := by
  induction ks with
  | nil => intro s; rfl
  | cons k ks ih => intro s; simp [assignCodes, ih]

theorem find_assignCodes (ks : List String) (hnd : ks.Nodup) :
    ∀ (s : Int) (j : Nat) (hj : j < ks.length),
      find (assignCodes s ks) (ks.get ⟨j, hj⟩) = some (s + (j : Nat)) := by
  induction ks with
  | nil => intro s j hj; simp at hj
  | cons k ks ih =>
    intro s j hj
    rw [List.nodup_cons] at hnd
    cases j with
    | zero => simp [assignCodes, find, List.lookup_cons]
    | succ j =>
      have hj2 : j < ks.length := by simpa using hj
      have hne : ks.get ⟨j, hj2⟩ ≠ k := by
        intro h
        exact hnd.1 (h ▸ List.get_mem ks j hj2)
      have hb : (ks.get ⟨j, hj2⟩ == k) = false := by simpa using hne
      have := ih hnd.2 (s + 1) j hj2
      simp only [find, List.get_eq_getElem, assignCodes, List.getElem_cons_succ,
        List.lookup_cons] at this hb ⊢
      rw [hb, this]
      push_cast
      congr 1
      ring

theorem mem_windowKeys (L : Nat) (t : Transaction) (k : String) :
    k ∈ windowKeys L t ↔ ∃ i, i + L ≤ t.length ∧ k = sequenceStr (slice t i (i + L)) := by
  unfold windowKeys
  simp only [List.mem_map, List.mem_range]
  constructor
  · rintro ⟨i, hi, rfl⟩; exact ⟨i, by omega, rfl⟩
  · rintro ⟨i, hi, rfl⟩; exact ⟨i, by omega, rfl⟩

theorem mem_datasetKeys (dataset : Dataset) (L : Nat) (k : String) :
    k ∈ datasetKeys dataset L ↔
      ∃ t ∈ dataset, ∃ i, i + L ≤ t.length ∧ k = sequenceStr (slice t i (i + L)) := by
  unfold datasetKeys
  simp only [List.mem_flatMap, mem_windowKeys]

/-- C2: after `identifySequences` has run on the empty dictionary, a key has an
entry exactly when it is the key of a window of length `L` of some transaction, taken
at an offset `i` with `i + L ≤ len`. -/
theorem identifySequences_keys (dataset : Dataset) (L : Nat) (s : Int) (k : String) :
    k ∈ (identifySequences dataset [] L s).1.map Prod.fst ↔
      ∃ t ∈ dataset, ∃ i, i + L ≤ t.length ∧ k = sequenceStr (slice t i (i + L)) := by
  rw [identifySequences_eq, foldl_insertKey]
  simp only [List.map_nil, List.nil_append, map_fst_assignCodes, mem_firstSeen,
    List.not_mem_nil, not_false_eq_true, and_true]
  exact mem_datasetKeys dataset L k

/-- With the counter unbounded, one invocation appends the entries `k_j -> s + j` for
the new keys in first-seen order and returns the counter `s + m`. -/
theorem identifySequences_first_seen (dataset : Dataset) (m : SequenceMap) (L : Nat)
    (s : Int) :
    (identifySequences dataset m L s).1 = m ++ assignCodes s (newKeys dataset m L) ∧
    (identifySequences dataset m L s).2 = s + ((newKeys dataset m L).length : Nat) ∧
    (∀ (j : Nat) (hj : j < (newKeys dataset m L).length),
      find (identifySequences dataset m L s).1 ((newKeys dataset m L).get ⟨j, hj⟩) =
        some (s + (j : Nat))) ∧
    (∀ (i j : Nat) (hi : i < (newKeys dataset m L).length)
      (hj : j < (newKeys dataset m L).length) (ci cj : Int),
      find (identifySequences dataset m L s).1 ((newKeys dataset m L).get ⟨i, hi⟩) = some ci →
      find (identifySequences dataset m L s).1 ((newKeys dataset m L).get ⟨j, hj⟩) = some cj →
        (i < j → ci < cj) ∧
        ((newKeys dataset m L).get ⟨i, hi⟩ ≠ (newKeys dataset m L).get ⟨j, hj⟩ → ci ≠ cj)) := by
  have hr : identifySequences dataset m L s =
      (m ++ assignCodes s (newKeys dataset m L), s + ((newKeys dataset m L).length : Nat)) := by
    simp only [newKeys, identifySequences_eq, foldl_insertKey]
  have hfind : ∀ (j : Nat) (hj : j < (newKeys dataset m L).length),
      find (identifySequences dataset m L s).1 ((newKeys dataset m L).get ⟨j, hj⟩) =
        some (s + (j : Nat)) := by
    intro j hj
    have hnot : (newKeys dataset m L).get ⟨j, hj⟩ ∉ m.map Prod.fst :=
      ((mem_firstSeen _ _ _).mp (List.get_mem (newKeys dataset m L) j hj)).2
    rw [hr, find_append, (find_eq_none_iff m _).mpr hnot]
    exact find_assignCodes _ (nodup_firstSeen _ _) s j hj
  refine ⟨by rw [hr], by rw [hr], hfind, ?_⟩
  intro i j hi hj ci cj hci hcj
  rw [hfind i hi] at hci
  rw [hfind j hj] at hcj
  cases hci; cases hcj
  constructor
  · intro h; omega
  · intro hne heq
    apply hne
    have : i = j := by omega
    subst this; rfl

theorem wrapInt_eq (x : Int) (hlo : INT_MIN ≤ x) (hhi : x ≤ INT_MAX) : wrapInt x = x := by
  unfold INT_MIN at hlo
  unfold INT_MAX at hhi
  unfold wrapInt
  rw [Int.emod_eq_of_lt (by omega) (by omega)]
  omega

theorem identifyTransactionInt_eq (L : Nat) (st : SequenceMap × Int) (t : Transaction) :
    identifyTransactionInt L st t = (windowKeys L t).foldl insertKeyInt st := by
  unfold identifyTransactionInt windowKeys
  rw [List.foldl_map]
  rfl

theorem identifySequencesInt_eq_foldl (dataset : Dataset) (m : SequenceMap) (L : Nat)
    (s : Int) :
    identifySequencesInt dataset m L s = (datasetKeys dataset L).foldl insertKeyInt (m, s) := by
  unfold identifySequencesInt datasetKeys
  generalize (m, s) = st
  induction dataset generalizing st with
  | nil => rfl
  | cons t rest ih =>
    simp only [List.foldl_cons, List.flatMap_cons, List.foldl_append]
    rw [ih, identifyTransactionInt_eq]

theorem foldl_insertKeyInt (keys : List String) :
    ∀ (m : SequenceMap) (s : Int), INT_MIN ≤ s →
      s + ((firstSeen (m.map Prod.fst) keys).length : Nat) ≤ INT_MAX →
        keys.foldl insertKeyInt (m, s) = keys.foldl insertKey (m, s) := by
  induction keys with
  | nil => intro m s _ _; rfl
  | cons k ks ih =>
    intro m s hlo hhi
    rw [List.foldl_cons, List.foldl_cons]
    by_cases hk : k ∈ m.map Prod.fst
    · obtain ⟨c, hc⟩ : ∃ c, find m k = some c := by
        cases h : find m k with
        | none => exact absurd hk ((find_eq_none_iff m k).mp h)
        | some c => exact ⟨c, rfl⟩
      have h1 : insertKeyInt (m, s) k = (m, s) := by simp [insertKeyInt, hc]
      have h2 : insertKey (m, s) k = (m, s) := by simp [insertKey, hc]
      rw [firstSeen, if_pos hk] at hhi
      rw [h1, h2]
      exact ih m s hlo hhi
    · have hn : find m k = none := (find_eq_none_iff m k).mpr hk
      rw [firstSeen, if_neg hk, List.length_cons] at hhi
      push_cast at hhi
      have hw : wrapInt (s + 1) = s + 1 := by
        apply wrapInt_eq
        · unfold INT_MIN at hlo ⊢; omega
        · omega
      have h1 : insertKeyInt (m, s) k = (m ++ [(k, s)], s + 1) := by
        simp [insertKeyInt, hn, hw]
      have h2 : insertKey (m, s) k = (m ++ [(k, s)], s + 1) := by simp [insertKey, hn]
      rw [h1, h2]
      apply ih
      · unfold INT_MIN at hlo ⊢; omega
      · simp only [List.map_append, List.map_cons, List.map_nil]
        omega

/-- While the counter stays in the range of `int`, the invocation with the `int`
counter and the one with the unbounded counter return the same. -/
theorem identifySequencesInt_eq (dataset : Dataset) (m : SequenceMap) (L : Nat) (s : Int)
    (hlo : INT_MIN ≤ s) (hhi : s + ((newKeys dataset m L).length : Nat) ≤ INT_MAX) :
    identifySequencesInt dataset m L s = identifySequences dataset m L s := by
  rw [identifySequencesInt_eq_foldl, identifySequences_eq]
  exact foldl_insertKeyInt _ m s hlo hhi

/-- The claim C3 as stated fails for a starting counter next to `INT_MAX`: with
`s = 2147483646` and the two new keys of `1 2 3 4` the counter on return is
`-2147483648`, not `s + 2`. -/
theorem identifySequencesInt_overflow :
    identifySequencesInt [[1, 2, 3, 4]] [] 3 2147483646 =
        ([("1,2,3,", 2147483646), ("2,3,4,", 2147483647)], -2147483648) ∧
      (identifySequencesInt [[1, 2, 3, 4]] [] 3 2147483646).2 ≠
        2147483646 + ((newKeys [[1, 2, 3, 4]] [] 3).length : Nat) := by
  decide

/-- C3, amended: for every starting counter `s` of type `int` that does not overflow
during the invocation (`s + m ≤ INT_MAX` for the `m` new keys), `identifySequences`
appends, for the keys `k_0, ..., k_(m-1)` not yet in the dictionary in first-seen
order, the entries `k_j -> s + j`; the counter on return is `s + m`, `k_j` is looked
up to `s + j`, the codes increase strictly with first-seen order, and distinct new
keys have distinct codes. -/
theorem identifySequencesInt_first_seen (dataset : Dataset) (m : SequenceMap) (L : Nat)
    (s : Int) (hlo : INT_MIN ≤ s)
    (hhi : s + ((newKeys dataset m L).length : Nat) ≤ INT_MAX) :
    (identifySequencesInt dataset m L s).1 = m ++ assignCodes s (newKeys dataset m L) ∧
    (identifySequencesInt dataset m L s).2 = s + ((newKeys dataset m L).length : Nat) ∧
    (∀ (j : Nat) (hj : j < (newKeys dataset m L).length),
      find (identifySequencesInt dataset m L s).1 ((newKeys dataset m L).get ⟨j, hj⟩) =
        some (s + (j : Nat))) ∧
    (∀ (i j : Nat) (hi : i < (newKeys dataset m L).length)
      (hj : j < (newKeys dataset m L).length) (ci cj : Int),
      find (identifySequencesInt dataset m L s).1 ((newKeys dataset m L).get ⟨i, hi⟩) =
        some ci →
      find (identifySequencesInt dataset m L s).1 ((newKeys dataset m L).get ⟨j, hj⟩) =
        some cj →
        (i < j → ci < cj) ∧
        ((newKeys dataset m L).get ⟨i, hi⟩ ≠ (newKeys dataset m L).get ⟨j, hj⟩ → ci ≠ cj)) := by
  rw [identifySequencesInt_eq dataset m L s hlo hhi]
  exact identifySequences_first_seen dataset m L s

theorem identifySequencesInt_first_seen_witness :
    (INT_MIN ≤ 2147483645 ∧
      (2147483645 : Int) + ((newKeys [[1, 2, 3, 4]] [] 3).length : Nat) ≤ INT_MAX) ∧
    (identifySequencesInt [[1, 2, 3, 4]] [] 3 2147483645).1 =
        [] ++ assignCodes 2147483645 (newKeys [[1, 2, 3, 4]] [] 3) ∧
      (identifySequencesInt [[1, 2, 3, 4]] [] 3 2147483645).2 =
        2147483645 + ((newKeys [[1, 2, 3, 4]] [] 3).length : Nat) :=
  ⟨⟨by decide, by decide⟩,
    (identifySequencesInt_first_seen [[1, 2, 3, 4]] [] 3 2147483645
      (by decide) (by decide)).1,
    (identifySequencesInt_first_seen [[1, 2, 3, 4]] [] 3 2147483645
      (by decide) (by decide)).2.1⟩

theorem map_snd_assignCodes (ks : List String) :
    ∀ s : Int, (assignCodes s ks).map Prod.snd =
      (List.range ks.length).map fun (j : Nat) => s + (j : Int) := by
  induction ks with
  | nil => intro s; rfl
  | cons k ks ih =>
    intro s
    rw [assignCodes, List.map_cons, ih, List.length_cons, List.range_succ_eq_map,
      List.map_cons, List.map_map]
    simp only [Nat.cast_zero, add_zero, List.cons.injEq, true_and]
    apply List.map_congr_left
    intro j _
    simp only [Function.comp_apply, Nat.succ_eq_add_one]
    push_cast
    ring

theorem wellNumbered_identifySequences (dataset : Dataset) (m : SequenceMap) (L : Nat)
    (s : Int) (h : WellNumbered m s) :
    WellNumbered (identifySequences dataset m L s).1 (identifySequences dataset m L s).2 := by
  obtain ⟨hnd, n, rfl, hcodes⟩ := h
  rw [identifySequences_eq, foldl_insertKey]
  set ks := firstSeen (m.map Prod.fst) (datasetKeys dataset L) with hks
  refine ⟨?_, n + ks.length, by push_cast; rfl, ?_⟩
  · rw [List.map_append, map_fst_assignCodes, List.nodup_append]
    refine ⟨hnd, nodup_firstSeen _ _, ?_⟩
    intro k hk1 hk2
    exact ((mem_firstSeen _ _ _).mp hk2).2 hk1
  · rw [List.map_append, hcodes, map_snd_assignCodes, List.range_add, List.map_append,
      List.map_map]
    congr 1

theorem wellNumbered_nil : WellNumbered [] 0 :=
  ⟨List.nodup_nil, 0, rfl, rfl⟩

theorem codeInjective_of_wellNumbered (m : SequenceMap) (s : Int) (h : WellNumbered m s) :
    CodeInjective m := by
  obtain ⟨_, n, _, hcodes⟩ := h
  intro k₁ k₂ c h₁ h₂
  have hnd : (m.map Prod.snd).Nodup := by
    rw [hcodes]
    exact (List.nodup_range n).map (fun a b hab => Int.ofNat.inj hab)
  have := List.inj_on_of_nodup_map hnd (mem_of_find m k₁ c h₁) (mem_of_find m k₂ c h₂) rfl
  exact congrArg Prod.fst this

theorem mem_removeUnusedSequences (m : SequenceMap) (used : UsedSet) (e : String × Int) :
    e ∈ removeUnusedSequences m used ↔ e ∈ m ∧ e.1 ∈ used := by
  induction m with
  | nil => simp [removeUnusedSequences]
  | cons a m ih =>
    rw [removeUnusedSequences]
    by_cases ha : a.1 ∈ used
    · rw [if_pos ha, List.mem_cons, List.mem_cons, ih]
      constructor
      · rintro (rfl | ⟨h1, h2⟩)
        · exact ⟨Or.inl rfl, ha⟩
        · exact ⟨Or.inr h1, h2⟩
      · rintro ⟨rfl | h1, h2⟩
        · exact Or.inl rfl
        · exact Or.inr ⟨h1, h2⟩
    · rw [if_neg ha, List.mem_cons, ih]
      constructor
      · rintro ⟨h1, h2⟩; exact ⟨Or.inr h1, h2⟩
      · rintro ⟨rfl | h1, h2⟩
        · exact absurd h2 ha
        · exact ⟨h1, h2⟩

theorem find_removeUnusedSequences (m : SequenceMap) (used : UsedSet) (k : String) :
    find (removeUnusedSequences m used) k = if k ∈ used then find m k else none := by
  induction m with
  | nil => simp [removeUnusedSequences, find]
  | cons a m ih =>
    obtain ⟨a, b⟩ := a
    rw [removeUnusedSequences]
    by_cases hk : k = a
    · subst hk
      by_cases hu : k ∈ used
      · simp [hu, find, List.lookup_cons]
      · simp only [hu, if_false]
        simpa [hu] using ih
    · have hb : (k == a) = false := by simpa using hk
      have hcons : ∀ rest : SequenceMap, find ((a, b) :: rest) k = find rest k := by
        intro rest; simp [find, List.lookup_cons, hb]
      by_cases ha : a ∈ used
      · simp only [ha, if_true]
        rw [hcons, hcons, ih]
      · simp only [ha, if_false]
        rw [hcons, ih]

/-- C6: `removeUnusedSequences` yields exactly the restriction of the dictionary to
the used keys: an entry is left iff it was there and its key is used, and a key is
looked up to its old code if it is used and to nothing otherwise. -/
theorem removeUnusedSequences_restrict (m : SequenceMap) (used : UsedSet) :
    (∀ e : String × Int, e ∈ removeUnusedSequences m used ↔ e ∈ m ∧ e.1 ∈ used) ∧
    (∀ k : String,
      find (removeUnusedSequences m used) k = if k ∈ used then find m k else none) :=
  ⟨mem_removeUnusedSequences m used, find_removeUnusedSequences m used⟩

/-! ## The cursor trace -/

theorem stepState_i (m : SequenceMap) (L : Nat) (items : List Int) (st : LoopState) :
    (stepState m L items st).i = st.i + widthAt m L items st.i := by
  unfold stepState widthAt
  cases matchAt m L items st.i <;> simp

theorem stepState_out (m : SequenceMap) (L : Nat) (items : List Int) (st : LoopState) :
    (stepState m L items st).out = st.out ++ [tokenAt m L items st.i] := by
  unfold stepState tokenAt
  cases matchAt m L items st.i <;> simp

theorem matchAt_le (m : SequenceMap) (L : Nat) (items : List Int) (i : Nat)
    (h : (matchAt m L items i).isSome) : i + L ≤ items.length := by
  unfold matchAt at h
  by_contra hw
  rw [if_neg hw] at h
  simp at h

theorem widthAt_pos (m : SequenceMap) (L : Nat) (hL : 1 ≤ L) (items : List Int) (i : Nat) :
    1 ≤ widthAt m L items i := by
  unfold widthAt; split <;> omega

theorem widthAt_le (m : SequenceMap) (L : Nat) (items : List Int) (i : Nat)
    (hi : i < items.length) : i + widthAt m L items i ≤ items.length := by
  unfold widthAt
  by_cases h : (matchAt m L items i).isSome
  · rw [if_pos h]; exact matchAt_le m L items i h
  · rw [if_neg h]; omega

theorem replaceTrace_succ (m : SequenceMap) (L : Nat) (items : List Int) (fuel : Nat)
    (st : LoopState) :
    replaceTrace m L items (fuel + 1) st =
      if st.i < items.length then st :: replaceTrace m L items fuel (stepState m L items st)
      else [st] := by
  by_cases h : st.i < items.length
  · simp [replaceTrace, h, replaceStep_eq m L items st h]
  · simp [replaceTrace, h]

theorem replaceTrace_cursors (m : SequenceMap) (L : Nat) (items : List Int) :
    ∀ (fuel : Nat) (st : LoopState),
      (replaceTrace m L items fuel st).map (fun s => s.i) = cursorsFrom m L items fuel st.i := by
  intro fuel
  induction fuel with
  | zero => intro st; simp [replaceTrace, cursorsFrom]
  | succ f ih =>
    intro st
    rw [replaceTrace_succ, cursorsFrom]
    by_cases h : st.i < items.length
    · simp only [h, if_true, List.map_cons, ih, stepState_i]
    · simp [h]

theorem cursorList_eq (m : SequenceMap) (L : Nat) (items : List Int) (used : UsedSet) :
    cursorList m L items used = cursorsFrom m L items (items.length + 1) 0 := by
  unfold cursorList
  rw [replaceTrace_cursors]

theorem cursorsFrom_ne_nil (m : SequenceMap) (L : Nat) (items : List Int) (fuel i : Nat) :
    cursorsFrom m L items fuel i ≠ [] := by
  cases fuel with
  | zero => simp [cursorsFrom]
  | succ f => rw [cursorsFrom]; split <;> simp

theorem cursorsFrom_ge (m : SequenceMap) (L : Nat) (items : List Int) :
    ∀ (fuel i a : Nat), a ∈ cursorsFrom m L items fuel i → i ≤ a := by
  intro fuel
  induction fuel with
  | zero => intro i a h; simp [cursorsFrom] at h; omega
  | succ f ih =>
    intro i a h
    rw [cursorsFrom] at h
    by_cases hi : i < items.length
    · rw [if_pos hi] at h
      rcases List.mem_cons.mp h with rfl | h
      · exact le_rfl
      · have := ih _ _ h; omega
    · rw [if_neg hi] at h; simp at h; omega

theorem cursorsFrom_le (m : SequenceMap) (L : Nat) (items : List Int) :
    ∀ (fuel i a : Nat), i ≤ items.length → a ∈ cursorsFrom m L items fuel i →
      a ≤ items.length := by
  intro fuel
  induction fuel with
  | zero => intro i a hi h; simp [cursorsFrom] at h; omega
  | succ f ih =>
    intro i a hi h
    rw [cursorsFrom] at h
    by_cases hlt : i < items.length
    · rw [if_pos hlt] at h
      rcases List.mem_cons.mp h with rfl | h
      · exact hi
      · exact ih _ _ (widthAt_le m L items i hlt) h
    · rw [if_neg hlt] at h; simp at h; omega

/-- Two cursor values of one pass are separated by the width consumed at the
smaller one. -/
theorem cursorsFrom_sep (m : SequenceMap) (L : Nat) (hL : 1 ≤ L) (items : List Int) :
    ∀ (fuel i a b : Nat), a ∈ cursorsFrom m L items fuel i →
      b ∈ cursorsFrom m L items fuel i → a < b → a + widthAt m L items a ≤ b := by
  intro fuel
  induction fuel with
  | zero => intro i a b ha hb hab; simp [cursorsFrom] at ha hb; omega
  | succ f ih =>
    intro i a b ha hb hab
    rw [cursorsFrom] at ha hb
    by_cases hlt : i < items.length
    · rw [if_pos hlt] at ha hb
      have hw := widthAt_pos m L hL items i
      rcases List.mem_cons.mp ha with rfl | ha <;> rcases List.mem_cons.mp hb with rfl | hb
      · omega
      · exact cursorsFrom_ge m L items _ _ _ hb
      · have := cursorsFrom_ge m L items _ _ _ ha; omega
      · exact ih _ a b ha hb hab
    · rw [if_neg hlt] at ha hb; simp at ha hb; omega

theorem cursorsFrom_pairwise (m : SequenceMap) (L : Nat) (hL : 1 ≤ L) (items : List Int) :
    ∀ (fuel i : Nat), (cursorsFrom m L items fuel i).Pairwise (· < ·) := by
  intro fuel
  induction fuel with
  | zero => intro i; simp [cursorsFrom]
  | succ f ih =>
    intro i
    rw [cursorsFrom]
    by_cases hlt : i < items.length
    · rw [if_pos hlt, List.pairwise_cons]
      refine ⟨?_, ih _⟩
      intro a ha
      have := cursorsFrom_ge m L items _ _ _ ha
      have hw := widthAt_pos m L hL items i
      omega
    · rw [if_neg hlt]; simp

theorem cursorsFrom_cover (m : SequenceMap) (L : Nat) (hL : 1 ≤ L) (items : List Int) :
    ∀ (fuel i p : Nat), items.length - i < fuel → i ≤ p → p < items.length →
      ∃ a ∈ cursorsFrom m L items fuel i, a ≤ p ∧ p < a + widthAt m L items a := by
  intro fuel
  induction fuel with
  | zero => intro i p h; omega
  | succ f ih =>
    intro i p hf hip hp
    have hlt : i < items.length := by omega
    rw [cursorsFrom, if_pos hlt]
    by_cases hin : p < i + widthAt m L items i
    · exact ⟨i, List.mem_cons_self _ _, hip, hin⟩
    · have hw := widthAt_pos m L hL items i
      obtain ⟨a, ha, h1, h2⟩ := ih (i + widthAt m L items i) p (by omega) (by omega) hp
      exact ⟨a, List.mem_cons_of_mem _ ha, h1, h2⟩

theorem dropLast_cursorsFrom_succ (m : SequenceMap) (L : Nat) (items : List Int)
    (fuel i : Nat) (hlt : i < items.length) :
    (cursorsFrom m L items (fuel + 1) i).dropLast =
      i :: (cursorsFrom m L items fuel (i + widthAt m L items i)).dropLast := by
  rw [cursorsFrom, if_pos hlt]
  obtain ⟨x, xs, hx⟩ := List.exists_cons_of_ne_nil
    (cursorsFrom_ne_nil m L items fuel (i + widthAt m L items i))
  rw [hx, List.dropLast_cons₂]

/-- The final state of the cursor loop: the cursor is at the end and one token has
been written for every cursor value but the last. -/
theorem replaceLoop_out (m : SequenceMap) (L : Nat) (hL : 1 ≤ L) (items : List Int) :
    ∀ (fuel : Nat) (st : LoopState), st.i ≤ items.length → items.length - st.i < fuel →
      ∃ used, replaceLoop m L items fuel st =
        .ok ⟨items.length,
          st.out ++ (cursorsFrom m L items fuel st.i).dropLast.map (tokenAt m L items),
          used⟩ := by
  intro fuel
  induction fuel with
  | zero => intro st _ h; omega
  | succ f ih =>
    intro st hi hf
    rw [replaceLoop_succ]
    by_cases hlt : st.i < items.length
    · rw [if_pos hlt, dropLast_cursorsFrom_succ m L items f st.i hlt]
      have hw := widthAt_pos m L hL items st.i
      have hw2 := widthAt_le m L items st.i hlt
      obtain ⟨u, hu⟩ := ih (stepState m L items st) (by rw [stepState_i]; exact hw2)
        (by rw [stepState_i]; omega)
      refine ⟨u, ?_⟩
      rw [hu, stepState_out, stepState_i]
      simp
    · have hi2 : st.i = items.length := by omega
      refine ⟨st.used, ?_⟩
      rw [if_neg hlt, cursorsFrom, if_neg hlt]
      cases st
      simp_all

/-- C10: within one `replaceSequences` pass over a transaction (`L ≥ 1`) the cursor
values increase strictly from left to right, one token is written per cursor value
below `n`, every input position `p < n` lies in the stretch `[a, a + width)` of
exactly one cursor value `a` (width `L` on a match, `1` for a literal), and two
matched windows `[a, a + L)`, `[b, b + L)` with `a < b` satisfy `a + L ≤ b` and lie
inside the transaction. -/
theorem replaceSequences_windows_partition (m : SequenceMap) (L : Nat) (items : Transaction)
    (used : UsedSet) (hL : 1 ≤ L) :
    (cursorList m L items used).Pairwise (· < ·) ∧
    (∃ used', replaceTransaction m L items used =
      .ok ((cursorList m L items used).dropLast.map (tokenAt m L items), used')) ∧
    (∀ p, p < items.length →
      ∃! a, a ∈ cursorList m L items used ∧ a ≤ p ∧ p < a + widthAt m L items a) ∧
    (∀ a b, a ∈ cursorList m L items used → b ∈ cursorList m L items used →
      (matchAt m L items a).isSome → (matchAt m L items b).isSome → a < b →
        a + L ≤ b ∧ b + L ≤ items.length) := by
  rw [cursorList_eq]
  refine ⟨cursorsFrom_pairwise m L hL items _ _, ?_, ?_, ?_⟩
  · obtain ⟨u, hu⟩ := replaceLoop_out m L hL items (items.length + 1) ⟨0, [], used⟩
      (Nat.zero_le _) (by simp)
    exact ⟨u, by simp [replaceTransaction, hu]⟩
  · intro p hp
    obtain ⟨a, ha, h1, h2⟩ := cursorsFrom_cover m L hL items (items.length + 1) 0 p
      (by omega) (Nat.zero_le _) hp
    refine ⟨a, ⟨ha, h1, h2⟩, ?_⟩
    rintro b ⟨hb, h3, h4⟩
    rcases Nat.lt_trichotomy a b with hab | hab | hab
    · have := cursorsFrom_sep m L hL items _ _ a b ha hb hab; omega
    · exact hab.symm
    · have := cursorsFrom_sep m L hL items _ _ b a hb ha hab; omega
  · intro a b ha hb hma hmb hab
    have := cursorsFrom_sep m L hL items _ _ a b ha hb hab
    rw [widthAt, if_pos hma] at this
    exact ⟨this, matchAt_le m L items b hmb⟩

theorem replaceSequences_windows_partition_witness :
    (cursorList [("1,2,3,", 0)] 3 [1, 2, 3, 9, 1, 2, 3, 4] []).Pairwise (· < ·) ∧
    (∃ used', replaceTransaction [("1,2,3,", 0)] 3 [1, 2, 3, 9, 1, 2, 3, 4] [] =
      .ok ((cursorList [("1,2,3,", 0)] 3 [1, 2, 3, 9, 1, 2, 3, 4] []).dropLast.map
        (tokenAt [("1,2,3,", 0)] 3 [1, 2, 3, 9, 1, 2, 3, 4]), used')) ∧
    (∀ p, p < [1, 2, 3, 9, 1, 2, 3, (4 : Int)].length →
      ∃! a, a ∈ cursorList [("1,2,3,", 0)] 3 [1, 2, 3, 9, 1, 2, 3, 4] [] ∧ a ≤ p ∧
        p < a + widthAt [("1,2,3,", 0)] 3 [1, 2, 3, 9, 1, 2, 3, 4] a) ∧
    (∀ a b, a ∈ cursorList [("1,2,3,", 0)] 3 [1, 2, 3, 9, 1, 2, 3, 4] [] →
      b ∈ cursorList [("1,2,3,", 0)] 3 [1, 2, 3, 9, 1, 2, 3, 4] [] →
      (matchAt [("1,2,3,", 0)] 3 [1, 2, 3, 9, 1, 2, 3, 4] a).isSome →
      (matchAt [("1,2,3,", 0)] 3 [1, 2, 3, 9, 1, 2, 3, 4] b).isSome → a < b →
        a + 3 ≤ b ∧ b + 3 ≤ [1, 2, 3, 9, 1, 2, 3, (4 : Int)].length) :=
  replaceSequences_windows_partition [("1,2,3,", 0)] 3 [1, 2, 3, 9, 1, 2, 3, 4] []
    (by decide)

/-! ## Keys determine their sequences -/

theorem toDigitsCore_append (fuel : Nat) :
    ∀ (n : Nat) (ds : List Char),
      Nat.toDigitsCore 10 fuel n ds = Nat.toDigitsCore 10 fuel n [] ++ ds := by
  induction fuel with
  | zero => intro n ds; simp [Nat.toDigitsCore]
  | succ f ih =>
    intro n ds
    simp only [Nat.toDigitsCore]
    by_cases h : n / 10 = 0
    · simp [h]
    · simp only [h, if_false]
      rw [ih (n / 10) (Nat.digitChar (n % 10) :: ds), ih (n / 10) [Nat.digitChar (n % 10)]]
      simp

theorem digitValue_digitChar (d : Nat) (h : d < 10) : digitValue (Nat.digitChar d) = d := by
  unfold digitValue
  interval_cases d <;> rfl

theorem digitChar_plain (d : Nat) (h : d < 10) :
    Nat.digitChar d ≠ ',' ∧ Nat.digitChar d ≠ '-' := by
  interval_cases d <;> decide

/-- The digits of a number are plain digit characters and spell the number. -/
theorem toDigitsCore_spec (fuel : Nat) :
    ∀ n : Nat, n < fuel →
      (∀ c ∈ Nat.toDigitsCore 10 fuel n [], c ≠ ',' ∧ c ≠ '-') ∧
      (Nat.toDigitsCore 10 fuel n []).foldl (fun a c => 10 * a + digitValue c) 0 = n := by
  induction fuel with
  | zero => intro n h; omega
  | succ f ih =>
    intro n hn
    simp only [Nat.toDigitsCore]
    have hmod : n % 10 < 10 := Nat.mod_lt _ (by decide)
    by_cases h : n / 10 = 0
    · simp only [h, if_true, List.mem_singleton, forall_eq, List.foldl_cons, List.foldl_nil]
      refine ⟨digitChar_plain _ hmod, ?_⟩
      rw [digitValue_digitChar _ hmod]
      omega
    · simp only [h, if_false]
      rw [toDigitsCore_append]
      obtain ⟨h1, h2⟩ := ih (n / 10) (by omega)
      constructor
      · intro c hc
        rcases List.mem_append.mp hc with hc | hc
        · exact h1 c hc
        · rw [List.mem_singleton] at hc
          rw [hc]; exact digitChar_plain _ hmod
      · rw [List.foldl_append, h2]
        simp only [List.foldl_cons, List.foldl_nil]
        rw [digitValue_digitChar _ hmod]
        omega

theorem parseItems_digits (ds : List Char) (hds : ∀ c ∈ ds, c ≠ ',' ∧ c ≠ '-') :
    ∀ (rest : List Char) (negative : Bool) (acc : Nat),
      parseItems (ds ++ rest) negative acc =
        parseItems rest negative (ds.foldl (fun a c => 10 * a + digitValue c) acc) := by
  induction ds with
  | nil => intro rest negative acc; rfl
  | cons d ds ih =>
    intro rest negative acc
    have hd := hds d (List.mem_cons_self _ _)
    rw [List.cons_append, parseItems, if_neg hd.1, if_neg hd.2,
      ih (fun c hc => hds c (List.mem_cons_of_mem _ hc))]
    rfl

theorem parseItems_item (x : Int) (rest : List Char) :
    parseItems ((to_string x).data ++ ',' :: rest) false 0 = x :: parseItems rest false 0 := by
  cases x with
  | ofNat n =>
    have hdata : (to_string (Int.ofNat n)).data = Nat.toDigitsCore 10 (n + 1) n [] := rfl
    obtain ⟨h1, h2⟩ := toDigitsCore_spec (n + 1) n (Nat.lt_succ_self n)
    rw [hdata, parseItems_digits _ h1, h2, parseItems]
    simp
  | negSucc n =>
    have hdata : (to_string (Int.negSucc n)).data =
        '-' :: Nat.toDigitsCore 10 (n + 1 + 1) (n + 1) [] := rfl
    obtain ⟨h1, h2⟩ := toDigitsCore_spec (n + 1 + 1) (n + 1) (Nat.lt_succ_self _)
    have hminus : ('-' : Char) ≠ ',' := by decide
    rw [hdata, List.cons_append, parseItems, if_neg hminus, if_pos rfl,
      parseItems_digits _ h1, h2, parseItems]
    simp [Int.negSucc_eq]

theorem sequenceStr_data_aux (xs : List Int) :
    ∀ acc : String,
      (xs.foldl (fun acc item => acc ++ (to_string item ++ ",")) acc).data =
        acc.data ++ xs.flatMap (fun x => (to_string x).data ++ [',']) := by
  induction xs with
  | nil => intro acc; simp
  | cons x xs ih =>
    intro acc
    rw [List.foldl_cons, ih]
    simp only [String.data_append, List.flatMap_cons, List.append_assoc]

theorem sequenceStr_data (xs : List Int) :
    (sequenceStr xs).data = xs.flatMap (fun x => (to_string x).data ++ [',']) := by
  unfold sequenceStr
  rw [sequenceStr_data_aux]
  rfl

/-- A key spells the sequence it was built from. -/
theorem keyItems_sequenceStr (xs : List Int) : keyItems (sequenceStr xs) = xs := by
  unfold keyItems
  rw [sequenceStr_data]
  induction xs with
  | nil => rfl
  | cons x xs ih =>
    rw [List.flatMap_cons, List.append_assoc, List.singleton_append, parseItems_item, ih]

theorem sequenceStr_injective (xs ys : List Int) (h : sequenceStr xs = sequenceStr ys) :
    xs = ys := by
  rw [← keyItems_sequenceStr xs, ← keyItems_sequenceStr ys, h]

/-! ## What a substitution pass returns -/

theorem stepState_used (m : SequenceMap) (L : Nat) (items : List Int) (st : LoopState)
    (k : String) :
    k ∈ (stepState m L items st).used ↔
      k ∈ st.used ∨ ((matchAt m L items st.i).isSome ∧
        k = sequenceStr (slice items st.i (st.i + L))) := by
  unfold stepState
  cases h : matchAt m L items st.i with
  | none => simp
  | some c =>
    simp only [List.mem_insert_iff, Option.isSome_some, true_and]
    exact or_comm

theorem replaceLoop_used (m : SequenceMap) (L : Nat) (hL : 1 ≤ L) (items : List Int) :
    ∀ (fuel : Nat) (st : LoopState), st.i ≤ items.length → items.length - st.i < fuel →
      ∃ st', replaceLoop m L items fuel st = .ok st' ∧
        ∀ k, k ∈ st'.used ↔
          k ∈ st.used ∨ ∃ a ∈ cursorsFrom m L items fuel st.i,
            (matchAt m L items a).isSome ∧ k = sequenceStr (slice items a (a + L)) := by
  intro fuel
  induction fuel with
  | zero => intro st _ h; omega
  | succ f ih =>
    intro st hi hf
    rw [replaceLoop_succ, cursorsFrom]
    by_cases hlt : st.i < items.length
    · rw [if_pos hlt, if_pos hlt]
      have hw := widthAt_pos m L hL items st.i
      have hw2 := widthAt_le m L items st.i hlt
      obtain ⟨st', hst', hk⟩ := ih (stepState m L items st) (by rw [stepState_i]; exact hw2)
        (by rw [stepState_i]; omega)
      refine ⟨st', hst', ?_⟩
      intro k
      rw [hk k, stepState_used, stepState_i]
      constructor
      · rintro ((h | ⟨h1, h2⟩) | ⟨a, ha, h1, h2⟩)
        · exact Or.inl h
        · exact Or.inr ⟨st.i, List.mem_cons_self _ _, h1, h2⟩
        · exact Or.inr ⟨a, List.mem_cons_of_mem _ ha, h1, h2⟩
      · rintro (h | ⟨a, ha, h1, h2⟩)
        · exact Or.inl (Or.inl h)
        · rcases List.mem_cons.mp ha with rfl | ha
          · exact Or.inl (Or.inr ⟨h1, h2⟩)
          · exact Or.inr ⟨a, ha, h1, h2⟩
    · refine ⟨st, by rw [if_neg hlt], ?_⟩
      intro k
      rw [if_neg hlt]
      constructor
      · exact Or.inl
      · rintro (h | ⟨a, ha, h1, _⟩)
        · exact h
        · rw [List.mem_singleton] at ha
          have := matchAt_le m L items a h1
          omega

theorem emitsCode_iff (m : SequenceMap) (L : Nat) (items : List Int) (a : Nat) (c : Int) :
    EmitsCode m L items a c ↔
      a ∈ cursorsFrom m L items (items.length + 1) 0 ∧ matchAt m L items a = some c := by
  unfold EmitsCode
  rw [cursorList_eq]

/-- The result of rewriting one transaction: the tokens are the reference rewrite,
one per cursor value, and the used set has grown by the keys of the matched
windows. -/
theorem replaceTransaction_spec (m : SequenceMap) (L : Nat) (hL : 1 ≤ L) (items : List Int)
    (used : UsedSet) :
    ∃ used', replaceTransaction m L items used = .ok (greedyRewrite m L items, used') ∧
      greedyRewrite m L items =
        (cursorsFrom m L items (items.length + 1) 0).dropLast.map (tokenAt m L items) ∧
      ∀ k, k ∈ used' ↔ k ∈ used ∨
        ∃ a c, EmitsCode m L items a c ∧ k = sequenceStr (slice items a (a + L)) := by
  obtain ⟨u₁, h₁⟩ := replaceLoop_greedy m L hL items (items.length + 1) ⟨0, [], used⟩
    (Nat.zero_le _) (by simp)
  obtain ⟨u₂, h₂⟩ := replaceLoop_out m L hL items (items.length + 1) ⟨0, [], used⟩
    (Nat.zero_le _) (by simp)
  obtain ⟨st', h₃, hk⟩ := replaceLoop_used m L hL items (items.length + 1) ⟨0, [], used⟩
    (Nat.zero_le _) (by simp)
  rw [h₁] at h₂ h₃
  simp only [List.nil_append, Nat.sub_zero, List.drop_zero, Except.ok.injEq,
    LoopState.mk.injEq, true_and] at h₂
  cases h₃
  refine ⟨u₁, by simp [replaceTransaction, h₁, greedyRewrite], ?_, ?_⟩
  · unfold greedyRewrite; exact h₂.1
  · intro k
    rw [hk k]
    apply or_congr Iff.rfl
    constructor
    · rintro ⟨a, ha, h1, h2⟩
      obtain ⟨c, hc⟩ := Option.isSome_iff_exists.mp h1
      exact ⟨a, c, (emitsCode_iff m L items a c).mpr ⟨ha, hc⟩, h2⟩
    · rintro ⟨a, c, hac, h2⟩
      obtain ⟨ha, hc⟩ := (emitsCode_iff m L items a c).mp hac
      exact ⟨a, ha, by rw [hc]; rfl, h2⟩

/-- The result of one substitution pass over a dataset. -/
theorem replaceSequences_spec (m : SequenceMap) (L : Nat) (hL : 1 ≤ L) :
    ∀ (dataset : Dataset) (used : UsedSet),
      ∃ used', replaceSequences dataset m L used =
          .ok (dataset.map (greedyRewrite m L), used') ∧
        ∀ k, k ∈ used' ↔ k ∈ used ∨
          ∃ t ∈ dataset, ∃ a c, EmitsCode m L t a c ∧
            k = sequenceStr (slice t a (a + L)) := by
  intro dataset
  induction dataset with
  | nil => intro used; exact ⟨used, rfl, by simp⟩
  | cons t rest ih =>
    intro used
    obtain ⟨u₁, h₁, _, hk₁⟩ := replaceTransaction_spec m L hL t used
    obtain ⟨u₂, h₂, hk₂⟩ := ih u₁
    refine ⟨u₂, by simp [replaceSequences, h₁, h₂], ?_⟩
    intro k
    rw [hk₂ k, hk₁ k]
    constructor
    · rintro ((h | ⟨a, c, h1, h2⟩) | ⟨t', ht', a, c, h1, h2⟩)
      · exact Or.inl h
      · exact Or.inr ⟨t, List.mem_cons_self _ _, a, c, h1, h2⟩
      · exact Or.inr ⟨t', List.mem_cons_of_mem _ ht', a, c, h1, h2⟩
    · rintro (h | ⟨t', ht', a, c, h1, h2⟩)
      · exact Or.inl (Or.inl h)
      · rcases List.mem_cons.mp ht' with rfl | ht'
        · exact Or.inl (Or.inr ⟨a, c, h1, h2⟩)
        · exact Or.inr ⟨t', ht', a, c, h1, h2⟩

/-- The pipeline of `main` returns, and what it returns. -/
theorem mainPipeline_spec (dataset : Dataset) :
    ∃ r, mainPipeline dataset = .ok r ∧
      r.after5 = dataset.map (greedyRewrite (builtMap dataset) 5) ∧
      r.after4 = r.after5.map (greedyRewrite (builtMap dataset) 4) ∧
      r.updated = r.after4.map (greedyRewrite (builtMap dataset) 3) ∧
      r.sequenceMap = removeUnusedSequences (builtMap dataset) r.usedSequences ∧
      ∀ k, k ∈ r.usedSequences ↔
        (∃ t ∈ dataset, ∃ a c, EmitsCode (builtMap dataset) 5 t a c ∧
          k = sequenceStr (slice t a (a + 5))) ∨
        (∃ t ∈ r.after5, ∃ a c, EmitsCode (builtMap dataset) 4 t a c ∧
          k = sequenceStr (slice t a (a + 4))) ∨
        (∃ t ∈ r.after4, ∃ a c, EmitsCode (builtMap dataset) 3 t a c ∧
          k = sequenceStr (slice t a (a + 3))) := by
  obtain ⟨u5, h5, hk5⟩ := replaceSequences_spec (builtMap dataset) 5 (by decide) dataset []
  obtain ⟨u4, h4, hk4⟩ := replaceSequences_spec (builtMap dataset) 4 (by decide)
    (dataset.map (greedyRewrite (builtMap dataset) 5)) u5
  obtain ⟨u3, h3, hk3⟩ := replaceSequences_spec (builtMap dataset) 3 (by decide)
    ((dataset.map (greedyRewrite (builtMap dataset) 5)).map
      (greedyRewrite (builtMap dataset) 4)) u4
  refine ⟨⟨dataset.map (greedyRewrite (builtMap dataset) 5),
    (dataset.map (greedyRewrite (builtMap dataset) 5)).map (greedyRewrite (builtMap dataset) 4),
    ((dataset.map (greedyRewrite (builtMap dataset) 5)).map
      (greedyRewrite (builtMap dataset) 4)).map (greedyRewrite (builtMap dataset) 3),
    u3, removeUnusedSequences (builtMap dataset) u3⟩, ?_, rfl, rfl, rfl, rfl, ?_⟩
  · simp only [mainPipeline, h5, h4, h3]
  intro k
  simp only []
  rw [hk3 k, hk4 k, hk5 k]
  simp only [List.not_mem_nil, false_or]
  exact or_assoc

/-! ## The dictionary of `main` -/

theorem identifySequences_mem_keys (dataset : Dataset) (m : SequenceMap) (L : Nat) (s : Int)
    (k : String) :
    k ∈ (identifySequences dataset m L s).1.map Prod.fst ↔
      k ∈ m.map Prod.fst ∨ k ∈ datasetKeys dataset L := by
  rw [identifySequences_eq, foldl_insertKey]
  simp only [List.map_append, List.mem_append, map_fst_assignCodes, mem_firstSeen]
  by_cases h : k ∈ m.map Prod.fst
  · simp [h]
  · simp [h]

theorem builtMap_wellNumbered (dataset : Dataset) :
    WellNumbered (builtMap dataset) (buildPasses dataset).2.2.2 := by
  have w5 := wellNumbered_identifySequences dataset [] 5 0 wellNumbered_nil
  have w4 := wellNumbered_identifySequences dataset _ 4 _ w5
  exact wellNumbered_identifySequences dataset _ 3 _ w4

theorem builtMap_key (dataset : Dataset) (e : String × Int) (he : e ∈ builtMap dataset) :
    ∃ L, ∃ t ∈ dataset, ∃ i, i + L ≤ t.length ∧ e.1 = sequenceStr (slice t i (i + L)) := by
  have hk : e.1 ∈ (builtMap dataset).map Prod.fst := List.mem_map.mpr ⟨e, he, rfl⟩
  unfold builtMap buildPasses at hk
  simp only [identifySequences_mem_keys, List.map_nil, List.not_mem_nil, false_or,
    mem_datasetKeys] at hk
  rcases hk with (h | h) | h
  · exact ⟨5, h⟩
  · exact ⟨4, h⟩
  · exact ⟨3, h⟩

theorem slice_subset (t : List Int) (i j : Nat) (x : Int) (h : x ∈ slice t i j) : x ∈ t :=
  List.mem_of_mem_drop (List.mem_of_mem_take h)

theorem builtMap_keysAvoidCodes (dataset : Dataset) (h : NoCollision dataset) :
    KeysAvoidCodes (builtMap dataset) := by
  intro e he x hx e' he'
  obtain ⟨L, t, ht, i, _, hkey⟩ := builtMap_key dataset e he
  rw [hkey, keyItems_sequenceStr] at hx
  exact h t ht x (slice_subset t i _ x hx) e' he'

/-! ## Decoding -/

theorem decode_cons (m : SequenceMap) (x : Int) (xs : List Int) :
    decode m (x :: xs) = decodeToken m x ++ decode m xs := by
  simp [decode]

theorem decode_append (m : SequenceMap) (xs ys : List Int) :
    decode m (xs ++ ys) = decode m xs ++ decode m ys := by
  simp [decode]

theorem decodeToken_plain (m : SequenceMap) (x : Int) (h : ∀ e ∈ m, e.2 ≠ x) :
    decodeToken m x = [x] := by
  unfold decodeToken
  have : m.find? (fun entry => entry.2 == x) = none := by
    rw [List.find?_eq_none]
    intro e he
    simpa using h e he
  rw [this]

theorem decode_plain (m : SequenceMap) (xs : List Int) (h : ∀ x ∈ xs, ∀ e ∈ m, e.2 ≠ x) :
    decode m xs = xs := by
  induction xs with
  | nil => rfl
  | cons x xs ih =>
    rw [decode_cons, decodeToken_plain m x (h x (List.mem_cons_self _ _)),
      ih (fun y hy => h y (List.mem_cons_of_mem _ hy))]
    rfl

theorem decodeToken_code (m : SequenceMap) (s : Int) (hm : WellNumbered m s) (k : String)
    (c : Int) (h : find m k = some c) : decodeToken m c = keyItems k := by
  unfold decodeToken
  have hmem := mem_of_find m k c h
  cases hf : m.find? (fun entry => entry.2 == c) with
  | none =>
    rw [List.find?_eq_none] at hf
    exact absurd (by simp) (hf (k, c) hmem)
  | some e =>
    have he : e ∈ m := List.mem_of_find?_eq_some hf
    have hc : e.2 = c := by simpa using List.find?_some hf
    have hk : find m e.1 = some c := by
      rw [← hc]; exact find_of_mem m hm.1 e.1 e.2 he
    simp only []
    rw [codeInjective_of_wellNumbered m s hm e.1 k c hk h]

/-- The items of a matched window are the items its key spells, none of them a
code. -/
theorem window_plain (m : SequenceMap) (hclean : KeysAvoidCodes m) (w : List Int) (c : Int)
    (h : find m (sequenceStr w) = some c) : ∀ x ∈ w, ∀ e ∈ m, e.2 ≠ x := by
  intro x hx e he
  have := hclean (sequenceStr w, c) (mem_of_find m _ c h) x
  rw [keyItems_sequenceStr] at this
  exact this hx e he

theorem decode_greedyFrom (m : SequenceMap) (s : Int) (hm : WellNumbered m s)
    (hclean : KeysAvoidCodes m) (L : Nat) (hL : 1 ≤ L) :
    ∀ (fuel : Nat) (ts : List Int), ts.length ≤ fuel →
      decode m (greedyFrom m L fuel ts) = decode m ts := by
  intro fuel
  induction fuel with
  | zero =>
    intro ts h
    have : ts = [] := List.length_eq_zero.mp (by omega)
    subst this; rfl
  | succ f ih =>
    intro ts h
    cases ts with
    | nil => rfl
    | cons x xs =>
      have hxs : xs.length ≤ f := by simpa using h
      rw [greedyFrom]
      by_cases hw : L ≤ (x :: xs).length
      · rw [if_pos hw]
        cases hf : find m (sequenceStr ((x :: xs).take L)) with
        | none =>
          simp only []
          rw [decode_cons, decode_cons, ih xs hxs]
        | some c =>
          simp only []
          have hd : ((x :: xs).drop L).length ≤ f := by
            simp only [List.length_drop, List.length_cons]; omega
          rw [decode_cons, ih _ hd, decodeToken_code m s hm _ c hf, keyItems_sequenceStr]
          conv_rhs => rw [← List.take_append_drop L (x :: xs)]
          rw [decode_append, decode_plain m _ (window_plain m hclean _ c hf)]
      · rw [if_neg hw, decode_cons, decode_cons, ih xs hxs]

theorem decode_greedyRewrite (m : SequenceMap) (s : Int) (hm : WellNumbered m s)
    (hclean : KeysAvoidCodes m) (L : Nat) (hL : 1 ≤ L) (ts : List Int) :
    decode m (greedyRewrite m L ts) = decode m ts :=
  decode_greedyFrom m s hm hclean L hL ts.length ts le_rfl

/-- C5: for every dataset in which no item identifier equals a code assigned by the
three build passes, the pipeline of `main` returns and decoding every transaction of
the final rewritten dataset, each code token replaced by the items of its key, gives
back the original dataset. -/
theorem mainPipeline_decodable (dataset : Dataset) (h : NoCollision dataset) :
    ∃ r, mainPipeline dataset = .ok r ∧
      r.updated.map (decode (builtMap dataset)) = dataset := by
  obtain ⟨r, hr, h5, h4, h3, _, _⟩ := mainPipeline_spec dataset
  refine ⟨r, hr, ?_⟩
  have hm := builtMap_wellNumbered dataset
  have hclean := builtMap_keysAvoidCodes dataset h
  rw [h3, h4, h5, List.map_map, List.map_map, List.map_map]
  conv_rhs => rw [← List.map_id dataset]
  apply List.map_congr_left
  intro t ht
  simp only [Function.comp_apply, id_eq]
  rw [decode_greedyRewrite _ _ hm hclean 3 (by decide),
    decode_greedyRewrite _ _ hm hclean 4 (by decide),
    decode_greedyRewrite _ _ hm hclean 5 (by decide)]
  exact decode_plain _ t (fun x hx e he => h t ht x hx e he)

theorem mainPipeline_decodable_witness :
    NoCollision [[10, 11, 12, 10, 11, 12]] ∧
      ∃ r, mainPipeline [[10, 11, 12, 10, 11, 12]] = .ok r ∧
        r.updated.map (decode (builtMap [[10, 11, 12, 10, 11, 12]])) =
          [[10, 11, 12, 10, 11, 12]] :=
  ⟨by unfold NoCollision; decide,
    mainPipeline_decodable [[10, 11, 12, 10, 11, 12]] (by unfold NoCollision; decide)⟩

/-! ## Emitted codes, the used set and pruning -/

theorem emitsCode_find (m : SequenceMap) (L : Nat) (items : List Int) (a : Nat) (c : Int)
    (h : EmitsCode m L items a c) :
    a + L ≤ items.length ∧ find m (sequenceStr (slice items a (a + L))) = some c := by
  have hc := h.2
  have hle := matchAt_le m L items a (by rw [hc]; rfl)
  unfold matchAt at hc
  rw [if_pos hle] at hc
  exact ⟨hle, hc⟩

theorem mem_dropLast_cursorsFrom (m : SequenceMap) (L : Nat) (items : List Int) :
    ∀ (fuel i a : Nat), a ∈ (cursorsFrom m L items fuel i).dropLast →
      a ∈ cursorsFrom m L items fuel i ∧ a < items.length := by
  intro fuel
  induction fuel with
  | zero => intro i a h; simp [cursorsFrom] at h
  | succ f ih =>
    intro i a h
    by_cases hlt : i < items.length
    · rw [dropLast_cursorsFrom_succ m L items f i hlt] at h
      rw [cursorsFrom, if_pos hlt]
      rcases List.mem_cons.mp h with rfl | h
      · exact ⟨List.mem_cons_self _ _, hlt⟩
      · exact ⟨List.mem_cons_of_mem _ (ih _ _ h).1, (ih _ _ h).2⟩
    · rw [cursorsFrom, if_neg hlt] at h; simp at h

theorem cursorsFrom_mem_dropLast (m : SequenceMap) (L : Nat) (hL : 1 ≤ L) (items : List Int) :
    ∀ (fuel i a : Nat), a ∈ cursorsFrom m L items fuel i → a < items.length →
      items.length - i < fuel → a ∈ (cursorsFrom m L items fuel i).dropLast := by
  intro fuel
  induction fuel with
  | zero => intro i a _ _ h; omega
  | succ f ih =>
    intro i a ha halt hf
    by_cases hlt : i < items.length
    · rw [dropLast_cursorsFrom_succ m L items f i hlt]
      rw [cursorsFrom, if_pos hlt] at ha
      have hw := widthAt_pos m L hL items i
      rcases List.mem_cons.mp ha with rfl | ha
      · exact List.mem_cons_self _ _
      · exact List.mem_cons_of_mem _ (ih _ _ ha halt (by omega))
    · rw [cursorsFrom, if_neg hlt, List.mem_singleton] at ha
      omega

/-- Every token of a rewritten transaction is a token of its input or a code the
pass wrote. -/
theorem token_origin (m : SequenceMap) (L : Nat) (hL : 1 ≤ L) (items : List Int) (tok : Int)
    (h : tok ∈ greedyRewrite m L items) :
    tok ∈ items ∨ ∃ a, EmitsCode m L items a tok := by
  obtain ⟨_, _, hg, _⟩ := replaceTransaction_spec m L hL items []
  rw [hg] at h
  obtain ⟨a, ha, rfl⟩ := List.mem_map.mp h
  obtain ⟨hmem, hlt⟩ := mem_dropLast_cursorsFrom m L items _ _ a ha
  unfold tokenAt
  cases hc : matchAt m L items a with
  | none =>
    left
    rw [Option.getD_none, List.getD_eq_getElem _ _ hlt]
    exact List.getElem_mem _
  | some c =>
    right
    exact ⟨a, (emitsCode_iff m L items a c).mpr ⟨hmem, hc⟩⟩

/-- A code the pass writes is a token of the rewritten transaction. -/
theorem emitsCode_mem (m : SequenceMap) (L : Nat) (hL : 1 ≤ L) (items : List Int) (a : Nat)
    (c : Int) (h : EmitsCode m L items a c) : c ∈ greedyRewrite m L items := by
  obtain ⟨_, _, hg, _⟩ := replaceTransaction_spec m L hL items []
  obtain ⟨hle, _⟩ := emitsCode_find m L items a c h
  obtain ⟨ha, hc⟩ := (emitsCode_iff m L items a c).mp h
  rw [hg]
  refine List.mem_map.mpr ⟨a, ?_, ?_⟩
  · exact cursorsFrom_mem_dropLast m L hL items _ _ a ha (by omega) (by omega)
  · simp [tokenAt, hc]

/-- A token that none of the keys of the dictionary spells survives a pass. -/
theorem token_persists (m : SequenceMap) (L : Nat) (hL : 1 ≤ L) (c : Int)
    (hc : ∀ e ∈ m, c ∉ keyItems e.1) :
    ∀ (fuel : Nat) (ts : List Int), ts.length ≤ fuel → c ∈ ts → c ∈ greedyFrom m L fuel ts := by
  intro fuel
  induction fuel with
  | zero =>
    intro ts h hmem
    have : ts = [] := List.length_eq_zero.mp (by omega)
    subst this; simp at hmem
  | succ f ih =>
    intro ts h hmem
    cases ts with
    | nil => simp at hmem
    | cons x xs =>
      have hxs : xs.length ≤ f := by simpa using h
      have hlit : c ∈ x :: greedyFrom m L f xs := by
        rcases List.mem_cons.mp hmem with rfl | hin
        · exact List.mem_cons_self _ _
        · exact List.mem_cons_of_mem _ (ih xs hxs hin)
      rw [greedyFrom]
      by_cases hw : L ≤ (x :: xs).length
      · rw [if_pos hw]
        cases hf : find m (sequenceStr ((x :: xs).take L)) with
        | none => exact hlit
        | some c' =>
          simp only []
          have hd : ((x :: xs).drop L).length ≤ f := by
            simp only [List.length_drop, List.length_cons]; omega
          rw [← List.take_append_drop L (x :: xs)] at hmem
          rcases List.mem_append.mp hmem with hin | hin
          · have := hc (sequenceStr ((x :: xs).take L), c') (mem_of_find m _ c' hf)
            rw [keyItems_sequenceStr] at this
            exact absurd hin this
          · exact List.mem_cons_of_mem _ (ih _ hd hin)
      · rw [if_neg hw]; exact hlit

/-- A token that is no item of the dataset is spelled by no key of the dictionary of
`main`. -/
theorem builtMap_not_spelled (dataset : Dataset) (c : Int) (hc : ∀ t ∈ dataset, c ∉ t) :
    ∀ e ∈ builtMap dataset, c ∉ keyItems e.1 := by
  intro e he hin
  obtain ⟨L, t, ht, i, _, hkey⟩ := builtMap_key dataset e he
  rw [hkey, keyItems_sequenceStr] at hin
  exact hc t ht (slice_subset t i _ c hin)

/-- C7: the pipeline of `main` returns, and whenever one of its three substitution
passes writes a code `c` at a cursor `a` of a transaction of its input, the key of
the window at `a` is in the final used set and the pruned dictionary still maps it
to `c`. -/
theorem emitted_codes_kept (dataset : Dataset) :
    ∃ r, mainPipeline dataset = .ok r ∧
      ∀ p ∈ [(5, dataset), (4, r.after5), (3, r.after4)],
        ∀ t ∈ p.2, ∀ (a : Nat) (c : Int), EmitsCode (builtMap dataset) p.1 t a c →
          sequenceStr (slice t a (a + p.1)) ∈ r.usedSequences ∧
          find r.sequenceMap (sequenceStr (slice t a (a + p.1))) = some c := by
  obtain ⟨r, hr, _, _, _, hmap, hused⟩ := mainPipeline_spec dataset
  refine ⟨r, hr, ?_⟩
  intro p hp t ht a c hemit
  have hin : sequenceStr (slice t a (a + p.1)) ∈ r.usedSequences := by
    rw [hused]
    simp only [List.mem_cons, List.mem_singleton, List.not_mem_nil, or_false] at hp
    rcases hp with rfl | rfl | rfl
    · exact Or.inl ⟨t, ht, a, c, hemit, rfl⟩
    · exact Or.inr (Or.inl ⟨t, ht, a, c, hemit, rfl⟩)
    · exact Or.inr (Or.inr ⟨t, ht, a, c, hemit, rfl⟩)
  refine ⟨hin, ?_⟩
  rw [hmap, find_removeUnusedSequences, if_pos hin]
  exact (emitsCode_find _ _ _ _ _ hemit).2

theorem emitted_codes_kept_witness :
    ∃ r, mainPipeline [[1, 2, 3, 4, 5, 1, 2, 3, 4, 5]] = .ok r ∧
      sequenceStr (slice [1, 2, 3, 4, 5, 1, 2, 3, 4, 5] 5 (5 + 5)) ∈ r.usedSequences ∧
      find r.sequenceMap (sequenceStr (slice [1, 2, 3, 4, 5, 1, 2, 3, 4, 5] 5 (5 + 5))) =
        some 0 := by
  obtain ⟨r, hr, h⟩ := emitted_codes_kept [[1, 2, 3, 4, 5, 1, 2, 3, 4, 5]]
  exact ⟨r, hr, h (5, [[1, 2, 3, 4, 5, 1, 2, 3, 4, 5]]) (List.mem_cons_self _ _)
    [1, 2, 3, 4, 5, 1, 2, 3, 4, 5] (List.mem_cons_self _ _) 5 0 ⟨by decide, by decide⟩⟩

/-- Every token of the final dataset is an item of the original dataset or the code
of a used key. -/
theorem final_token_origin (dataset : Dataset) (r : MainResult)
    (h5 : r.after5 = dataset.map (greedyRewrite (builtMap dataset) 5))
    (h4 : r.after4 = r.after5.map (greedyRewrite (builtMap dataset) 4))
    (h3 : r.updated = r.after4.map (greedyRewrite (builtMap dataset) 3))
    (hused : ∀ k, k ∈ r.usedSequences ↔
        (∃ t ∈ dataset, ∃ a c, EmitsCode (builtMap dataset) 5 t a c ∧
          k = sequenceStr (slice t a (a + 5))) ∨
        (∃ t ∈ r.after5, ∃ a c, EmitsCode (builtMap dataset) 4 t a c ∧
          k = sequenceStr (slice t a (a + 4))) ∨
        (∃ t ∈ r.after4, ∃ a c, EmitsCode (builtMap dataset) 3 t a c ∧
          k = sequenceStr (slice t a (a + 3))))
    (t : Transaction) (ht : t ∈ r.updated) (tok : Int) (htok : tok ∈ t) :
    (∃ t₀ ∈ dataset, tok ∈ t₀) ∨
      ∃ k ∈ r.usedSequences, find (builtMap dataset) k = some tok := by
  rw [h3] at ht
  obtain ⟨t4, ht4, rfl⟩ := List.mem_map.mp ht
  rcases token_origin _ 3 (by decide) t4 tok htok with h | ⟨a, ha⟩
  · have ht4' := ht4
    rw [h4] at ht4'
    obtain ⟨t5, ht5, rfl⟩ := List.mem_map.mp ht4'
    rcases token_origin _ 4 (by decide) t5 tok h with h | ⟨a, ha⟩
    · have ht5' := ht5
      rw [h5] at ht5'
      obtain ⟨t0, ht0, rfl⟩ := List.mem_map.mp ht5'
      rcases token_origin _ 5 (by decide) t0 tok h with h | ⟨a, ha⟩
      · exact Or.inl ⟨t0, ht0, h⟩
      · exact Or.inr ⟨_, (hused _).mpr (Or.inl ⟨t0, ht0, a, tok, ha, rfl⟩),
          (emitsCode_find _ _ _ _ _ ha).2⟩
    · exact Or.inr ⟨_, (hused _).mpr (Or.inr (Or.inl ⟨t5, ht5, a, tok, ha, rfl⟩)),
        (emitsCode_find _ _ _ _ _ ha).2⟩
  · exact Or.inr ⟨_, (hused _).mpr (Or.inr (Or.inr ⟨t4, ht4, a, tok, ha, rfl⟩)),
      (emitsCode_find _ _ _ _ _ ha).2⟩

/-- C8, amended: for every dataset the pipeline of `main` returns, and no entry that
pruning removed and whose code is not an item identifier of the dataset has its code
among the tokens of the final rewritten dataset. -/
theorem pruned_codes_absent (dataset : Dataset) :
    ∃ r, mainPipeline dataset = .ok r ∧
      ∀ e ∈ builtMap dataset, e ∉ r.sequenceMap → (∀ t ∈ dataset, e.2 ∉ t) →
        ∀ t ∈ r.updated, e.2 ∉ t := by
  obtain ⟨r, hr, h5, h4, h3, hmap, hused⟩ := mainPipeline_spec dataset
  refine ⟨r, hr, ?_⟩
  intro e he hpruned hitem t ht htok
  have hm := builtMap_wellNumbered dataset
  rcases final_token_origin dataset r h5 h4 h3 hused t ht e.2 htok with
    ⟨t0, ht0, hin⟩ | ⟨k, hk, hfind⟩
  · exact hitem t0 ht0 hin
  · have hfe : find (builtMap dataset) e.1 = some e.2 := find_of_mem _ hm.1 e.1 e.2 he
    have hkey := codeInjective_of_wellNumbered _ _ hm e.1 k e.2 hfe hfind
    apply hpruned
    rw [hmap, mem_removeUnusedSequences]
    exact ⟨he, hkey ▸ hk⟩

theorem pruned_codes_absent_witness :
    ∃ r, mainPipeline [[1, 2, 3, 4, 5, 1, 2, 3, 4, 5]] = .ok r ∧
      (("3,4,5,1,", 7) ∈ builtMap [[1, 2, 3, 4, 5, 1, 2, 3, 4, 5]] ∧
        (("3,4,5,1,", 7) : String × Int) ∉ r.sequenceMap ∧
        ∀ t ∈ [[1, 2, 3, 4, 5, 1, 2, 3, 4, (5 : Int)]], (7 : Int) ∉ t) ∧
      ∀ t ∈ r.updated, (7 : Int) ∉ t := by
  obtain ⟨r, hr, h⟩ := pruned_codes_absent [[1, 2, 3, 4, 5, 1, 2, 3, 4, 5]]
  have h0 : mainPipeline [[1, 2, 3, 4, 5, 1, 2, 3, 4, 5]] =
      .ok ⟨[[0, 0]], [[0, 0]], [[0, 0]], ["1,2,3,4,5,"], [("1,2,3,4,5,", 0)]⟩ := by rfl
  rw [h0] at hr
  injection hr with hr
  subst hr
  exact ⟨_, h0, ⟨by decide, by decide, by decide⟩,
    h ("3,4,5,1,", 7) (by decide) (by decide) (by decide)⟩

/-- The claim C8 as stated fails on the dataset `1 1 1 1 1 1`: the entry
`1,1,1,1, -> 1` is pruned, and the token `1` is in the rewritten transaction `0 1`. -/
theorem pruned_code_in_output :
    ∃ r, mainPipeline [[1, 1, 1, 1, 1, 1]] = .ok r ∧
      ∃ e ∈ builtMap [[1, 1, 1, 1, 1, 1]], e ∉ r.sequenceMap ∧ ∃ t ∈ r.updated, e.2 ∈ t :=
  ⟨⟨[[0, 1]], [[0, 1]], [[0, 1]], ["1,1,1,1,1,"], [("1,1,1,1,1,", 0)]⟩, by rfl,
    ("1,1,1,1,", 1), by decide, by decide, [0, 1], by decide, by decide⟩

/-- C9, amended: for every dataset the pipeline of `main` returns, and every entry
kept by pruning whose code is not an item identifier of the dataset has its code
among the tokens of the final rewritten dataset. -/
theorem kept_codes_present (dataset : Dataset) :
    ∃ r, mainPipeline dataset = .ok r ∧
      ∀ e ∈ r.sequenceMap, (∀ t ∈ dataset, e.2 ∉ t) → ∃ t ∈ r.updated, e.2 ∈ t := by
  obtain ⟨r, hr, h5, h4, h3, hmap, hused⟩ := mainPipeline_spec dataset
  refine ⟨r, hr, ?_⟩
  intro e he hitem
  rw [hmap, mem_removeUnusedSequences] at he
  obtain ⟨hem, heu⟩ := he
  have hm := builtMap_wellNumbered dataset
  have hfe : find (builtMap dataset) e.1 = some e.2 := find_of_mem _ hm.1 e.1 e.2 hem
  have keep : ∀ (L : Nat), 1 ≤ L → ∀ ts : List Int, e.2 ∈ ts →
      e.2 ∈ greedyRewrite (builtMap dataset) L ts := fun L hL ts hts =>
    token_persists _ L hL e.2 (builtMap_not_spelled dataset e.2 hitem) ts.length ts le_rfl hts
  have emitted : ∀ (L : Nat), 1 ≤ L → ∀ (t : List Int) (a : Nat) (c : Int),
      EmitsCode (builtMap dataset) L t a c → e.1 = sequenceStr (slice t a (a + L)) →
        e.2 ∈ greedyRewrite (builtMap dataset) L t := by
    intro L hL t a c hemit hkey
    have hc := (emitsCode_find _ _ _ _ _ hemit).2
    rw [← hkey, hfe] at hc
    cases hc
    exact emitsCode_mem _ L hL t a _ hemit
  rcases (hused e.1).mp heu with ⟨t, ht, a, c, hemit, hkey⟩ | ⟨t, ht, a, c, hemit, hkey⟩ |
    ⟨t, ht, a, c, hemit, hkey⟩
  · refine ⟨_, ?_, keep 3 (by decide) _ (keep 4 (by decide) _
      (emitted 5 (by decide) t a c hemit hkey))⟩
    rw [h3, h4, h5]
    exact List.mem_map_of_mem _ (List.mem_map_of_mem _ (List.mem_map_of_mem _ ht))
  · refine ⟨_, ?_, keep 3 (by decide) _ (emitted 4 (by decide) t a c hemit hkey)⟩
    rw [h3, h4]
    exact List.mem_map_of_mem _ (List.mem_map_of_mem _ ht)
  · refine ⟨_, ?_, emitted 3 (by decide) t a c hemit hkey⟩
    rw [h3]
    exact List.mem_map_of_mem _ ht

theorem kept_codes_present_witness :
    ∃ r, mainPipeline [[1, 2, 3, 4, 5, 1, 2, 3, 4, 5]] = .ok r ∧
      ((("1,2,3,4,5,", 0) : String × Int) ∈ r.sequenceMap ∧
        ∀ t ∈ [[1, 2, 3, 4, 5, 1, 2, 3, 4, (5 : Int)]], (0 : Int) ∉ t) ∧
      ∃ t ∈ r.updated, (0 : Int) ∈ t := by
  obtain ⟨r, hr, h⟩ := kept_codes_present [[1, 2, 3, 4, 5, 1, 2, 3, 4, 5]]
  have h0 : mainPipeline [[1, 2, 3, 4, 5, 1, 2, 3, 4, 5]] =
      .ok ⟨[[0, 0]], [[0, 0]], [[0, 0]], ["1,2,3,4,5,"], [("1,2,3,4,5,", 0)]⟩ := by rfl
  rw [h0] at hr
  injection hr with hr
  subst hr
  exact ⟨_, h0, ⟨by decide, by decide⟩, h ("1,2,3,4,5,", 0) (by decide) (by decide)⟩

/-- The claim C9 as stated fails on the dataset `0 0 0 0 0 0 0 0`: the length-5 pass
writes `0 0 0 0`, the length-4 pass rewrites that to `1`, and the kept entry
`0,0,0,0,0, -> 0` has its code nowhere in the final dataset. -/
theorem kept_code_not_in_output :
    ∃ r, mainPipeline [[0, 0, 0, 0, 0, 0, 0, 0]] = .ok r ∧
      ∃ e ∈ r.sequenceMap, ∀ t ∈ r.updated, e.2 ∉ t :=
  ⟨⟨[[0, 0, 0, 0]], [[1]], [[1]], ["0,0,0,0,", "0,0,0,0,0,"],
      [("0,0,0,0,0,", 0), ("0,0,0,0,", 1)]⟩, by rfl,
    ("0,0,0,0,0,", 0), by decide, by decide⟩

/-! ## Keys, growth of the dictionary, idempotence of pruning -/

/-- C11: the key built for a window determines the window: two integer sequences of
any lengths have the same key string iff they are equal element by element, and
sequences of different lengths never have the same key. -/
theorem sequenceStr_eq_iff :
    (∀ s t : List Int, sequenceStr s = sequenceStr t ↔ s = t) ∧
    (∀ s t : List Int, s.length ≠ t.length → sequenceStr s ≠ sequenceStr t) := by
  have inj : ∀ s t : List Int, sequenceStr s = sequenceStr t → s = t := by
    intro s t h
    rw [← keyItems_sequenceStr s, ← keyItems_sequenceStr t, h]
  refine ⟨fun s t => ⟨inj s t, fun h => by rw [h]⟩, ?_⟩
  intro s t hlen h
  exact hlen (by rw [inj s t h])

theorem sequenceStr_eq_iff_witness :
    sequenceStr [1, 2, 3, 4] ≠ sequenceStr [12, 3, 4] :=
  sequenceStr_eq_iff.2 [1, 2, 3, 4] [12, 3, 4] (by decide)

/-- C12: `identifySequences` only grows the dictionary: the old entries stay, in
place, in front of the new ones, and every key that had a code before is looked up
to the same code afterwards. -/
theorem identifySequences_grows (dataset : Dataset) (m : SequenceMap) (L : Nat) (s : Int) :
    (∃ added, (identifySequences dataset m L s).1 = m ++ added) ∧
    (∀ k c, find m k = some c → find (identifySequences dataset m L s).1 k = some c) := by
  have hr : (identifySequences dataset m L s).1 =
      m ++ assignCodes s (firstSeen (m.map Prod.fst) (datasetKeys dataset L)) := by
    rw [identifySequences_eq, foldl_insertKey]
  refine ⟨⟨_, hr⟩, ?_⟩
  intro k c h
  rw [hr, find_append, h]
  rfl

theorem identifySequences_grows_witness :
    find [("1,2,3,", 7)] "1,2,3," = some 7 ∧
      find (identifySequences [[1, 2, 3, 4]] [("1,2,3,", 7)] 3 8).1 "1,2,3," = some 7 :=
  ⟨by decide,
    (identifySequences_grows [[1, 2, 3, 4]] [("1,2,3,", 7)] 3 8).2 "1,2,3," 7 (by decide)⟩

/-- C13: `removeUnusedSequences` is idempotent: pruning a pruned dictionary with the
same used set changes nothing. -/
theorem removeUnusedSequences_idempotent (d : SequenceMap) (u : UsedSet) :
    removeUnusedSequences (removeUnusedSequences d u) u = removeUnusedSequences d u := by
  induction d with
  | nil => rfl
  | cons e rest ih =>
    rw [removeUnusedSequences]
    by_cases h : e.1 ∈ u
    · rw [if_pos h, removeUnusedSequences, if_pos h, ih]
    · rw [if_neg h, ih]

/-! ## The example `1 2 3 4 5 1 2 3 4 5` -/

/-- The claim C14 as stated fails: after the length-5 build pass on
`1 2 3 4 5 1 2 3 4 5` the dictionary is not the single entry `1,2,3,4,5, -> 0`. -/
theorem identify5_example_not_single :
    (identifySequences [[1, 2, 3, 4, 5, 1, 2, 3, 4, 5]] [] 5 0).1 ≠ [("1,2,3,4,5,", 0)] := by
  decide

/-- C14, amended: after the length-5 build pass on `1 2 3 4 5 1 2 3 4 5`, started
from the empty dictionary and counter 0, the dictionary has exactly the five entries
of the distinct windows at offsets 0 to 4, the first of them `1,2,3,4,5, -> 0`, and
the counter is 5. -/
theorem identify5_example :
    identifySequences [[1, 2, 3, 4, 5, 1, 2, 3, 4, 5]] [] 5 0 =
      ([("1,2,3,4,5,", 0), ("2,3,4,5,1,", 1), ("3,4,5,1,2,", 2), ("4,5,1,2,3,", 3),
        ("5,1,2,3,4,", 4)], 5) := by
  decide

/-- C15: on `1 2 3 4 5 1 2 3 4 5` the pipeline of `main` rewrites the transaction to
`0 0` in the length-5 pass, leaves it `0 0` in the length-4 and length-3 passes, and
the pruned dictionary is exactly the entry `1,2,3,4,5, -> 0`. -/
theorem mainPipeline_example :
    ∃ used, mainPipeline [[1, 2, 3, 4, 5, 1, 2, 3, 4, 5]] =
      .ok { after5 := [[0, 0]], after4 := [[0, 0]], updated := [[0, 0]],
            usedSequences := used, sequenceMap := [("1,2,3,4,5,", 0)] } :=
  ⟨["1,2,3,4,5,"], by rfl⟩

/-! ## The collision of codes and items -/

set_option maxRecDepth 100000

/-- C16: on the dataset of one transaction of twenty items `0` the length-5 pass
writes the code `0` at the cursors 0, 5, 10 and 15, so its output `0 0 0 0` consists
of code tokens only; the length-4 pass matches the window of these four tokens and
writes the code `1`; and decoding the final transaction `1` gives four items `0`,
not the original twenty. -/
theorem collision_example :
    ∃ r, mainPipeline [[0, 0, 0, 0, 0, 0, 0, 0, 0, 0, 0, 0, 0, 0, 0, 0, 0, 0, 0, 0]] = .ok r ∧
      cursorList (builtMap [[0, 0, 0, 0, 0, 0, 0, 0, 0, 0, 0, 0, 0, 0, 0, 0, 0, 0, 0, 0]]) 5
        [0, 0, 0, 0, 0, 0, 0, 0, 0, 0, 0, 0, 0, 0, 0, 0, 0, 0, 0, 0] [] = [0, 5, 10, 15, 20] ∧
      (∀ a ∈ [0, 5, 10, 15],
        EmitsCode (builtMap [[0, 0, 0, 0, 0, 0, 0, 0, 0, 0, 0, 0, 0, 0, 0, 0, 0, 0, 0, 0]]) 5
          [0, 0, 0, 0, 0, 0, 0, 0, 0, 0, 0, 0, 0, 0, 0, 0, 0, 0, 0, 0] a 0) ∧
      r.after5 = [[0, 0, 0, 0]] ∧
      EmitsCode (builtMap [[0, 0, 0, 0, 0, 0, 0, 0, 0, 0, 0, 0, 0, 0, 0, 0, 0, 0, 0, 0]]) 4
        [0, 0, 0, 0] 0 1 ∧
      r.updated = [[1]] ∧
      r.updated.map
          (decode (builtMap [[0, 0, 0, 0, 0, 0, 0, 0, 0, 0, 0, 0, 0, 0, 0, 0, 0, 0, 0, 0]])) =
        [[0, 0, 0, 0]] ∧
      r.updated.map
          (decode (builtMap [[0, 0, 0, 0, 0, 0, 0, 0, 0, 0, 0, 0, 0, 0, 0, 0, 0, 0, 0, 0]])) ≠
        [[0, 0, 0, 0, 0, 0, 0, 0, 0, 0, 0, 0, 0, 0, 0, 0, 0, 0, 0, 0]] :=
  ⟨⟨[[0, 0, 0, 0]], [[1]], [[1]], ["0,0,0,0,", "0,0,0,0,0,"],
      [("0,0,0,0,0,", 0), ("0,0,0,0,", 1)]⟩,
    by rfl, by decide, by unfold EmitsCode; decide, rfl, by unfold EmitsCode; decide, rfl,
    by decide, by decide⟩

/-! ## A pass over the dataset the dictionary was built from -/

theorem greedyFrom_short (m : SequenceMap) (L : Nat) :
    ∀ (fuel : Nat) (ts : List Int), ts.length < L → ts.length ≤ fuel →
      greedyFrom m L fuel ts = ts := by
  intro fuel
  induction fuel with
  | zero =>
    intro ts _ h
    have : ts = [] := List.length_eq_zero.mp (by omega)
    subst this; rfl
  | succ f ih =>
    intro ts hL h
    cases ts with
    | nil => rfl
    | cons x xs =>
      have hn : ¬ L ≤ (x :: xs).length := by omega
      rw [greedyFrom, if_neg hn, ih xs (by simp at hL; omega) (by simpa using h)]

theorem slice_drop (ts : List Int) (L a : Nat) :
    slice (ts.drop L) a (a + L) = slice ts (a + L) (a + L + L) := by
  rw [slice_eq, slice_eq, List.drop_drop, Nat.add_comm L a]

/-- When every window of the list has an entry, the reference rewrite is one code per
block of `L` tokens followed by the tokens left over. -/
theorem greedyFrom_blocks (m : SequenceMap) (L : Nat) (hL : 1 ≤ L) :
    ∀ (fuel : Nat) (ts : List Int), ts.length ≤ fuel →
      (∀ i, i + L ≤ ts.length → (find m (sequenceStr (slice ts i (i + L)))).isSome) →
      ∃ codes : List Int,
        greedyFrom m L fuel ts = codes ++ ts.drop (ts.length / L * L) ∧
        codes.length = ts.length / L ∧
        ∀ (j : Nat) (hj : j < codes.length),
          find m (sequenceStr (slice ts (j * L) (j * L + L))) = some (codes.get ⟨j, hj⟩) := by
  intro fuel
  induction fuel with
  | zero =>
    intro ts h _
    have : ts = [] := List.length_eq_zero.mp (by omega)
    subst this
    exact ⟨[], by simp [greedyFrom], by simp, fun j hj => by simp at hj⟩
  | succ f ih =>
    intro ts h hW
    by_cases hlen : L ≤ ts.length
    · cases ts with
      | nil => simp at hlen; omega
      | cons x xs =>
        have h0 := hW 0 (by simpa using hlen)
        obtain ⟨c, hc⟩ := Option.isSome_iff_exists.mp h0
        have hc' : find m (sequenceStr ((x :: xs).take L)) = some c := by
          rw [← hc, slice_eq]; simp
        have hd : ((x :: xs).drop L).length ≤ f := by
          simp only [List.length_drop, List.length_cons] at h ⊢; omega
        have hWd : ∀ i, i + L ≤ ((x :: xs).drop L).length →
            (find m (sequenceStr (slice ((x :: xs).drop L) i (i + L)))).isSome := by
          intro i hi
          rw [slice_drop]
          apply hW
          rw [List.length_drop] at hi
          omega
        obtain ⟨codes, hg, hcl, hidx⟩ := ih _ hd hWd
        have hdiv : (x :: xs).length / L = ((x :: xs).length - L) / L + 1 :=
          Nat.div_eq_sub_div (by omega) hlen
        refine ⟨c :: codes, ?_, ?_, ?_⟩
        · rw [greedyFrom, if_pos hlen, hc']
          simp only []
          rw [hg, List.length_drop, List.drop_drop, hdiv, Nat.add_mul, Nat.one_mul,
            Nat.add_comm L]
          rfl
        · rw [List.length_cons, hcl, List.length_drop, hdiv]
        · intro j hj
          cases j with
          | zero => simpa using hc
          | succ j =>
            have hj' : j < codes.length := by simpa using hj
            have := hidx j hj'
            rw [slice_drop] at this
            rw [Nat.add_mul, Nat.one_mul]
            simpa using this
    · have hlt : ts.length < L := by omega
      refine ⟨[], ?_, ?_, fun j hj => by simp at hj⟩
      · rw [greedyFrom_short m L _ ts hlt h, Nat.div_eq_of_lt hlt]
        simp
      · rw [Nat.div_eq_of_lt hlt]; rfl

theorem matched_cursor_multiple (m : SequenceMap) (L : Nat) (t : List Int)
    (hW : ∀ i, i + L ≤ t.length → (find m (sequenceStr (slice t i (i + L)))).isSome) :
    ∀ (fuel i : Nat), L ∣ i → ∀ a ∈ cursorsFrom m L t fuel i,
      (matchAt m L t a).isSome → L ∣ a := by
  intro fuel
  induction fuel with
  | zero =>
    intro i hi a ha _
    simp only [cursorsFrom, List.mem_singleton] at ha
    rw [ha]; exact hi
  | succ f ih =>
    intro i hi a ha hma
    rw [cursorsFrom] at ha
    by_cases hlt : i < t.length
    · rw [if_pos hlt] at ha
      rcases List.mem_cons.mp ha with rfl | ha
      · exact hi
      · by_cases hmi : (matchAt m L t i).isSome
        · have hw : widthAt m L t i = L := by rw [widthAt, if_pos hmi]
          rw [hw] at ha
          exact ih (i + L) (Dvd.dvd.add hi (dvd_refl L)) a ha hma
        · have hw : widthAt m L t i = 1 := by rw [widthAt, if_neg hmi]
          rw [hw] at ha
          have hge := cursorsFrom_ge m L t _ _ _ ha
          have hle := matchAt_le m L t a hma
          exfalso
          apply hmi
          have hi2 : i + L ≤ t.length := by omega
          rw [matchAt, if_pos hi2]
          exact hW i hi2
    · rw [if_neg hlt, List.mem_singleton] at ha
      rw [ha]; exact hi

theorem coversWindows_identifySequences (dataset : Dataset) (L : Nat) (m₀ : SequenceMap)
    (s : Int) : CoversWindows dataset L (identifySequences dataset m₀ L s).1 := by
  intro t ht i hi
  have hk : sequenceStr (slice t i (i + L)) ∈
      (identifySequences dataset m₀ L s).1.map Prod.fst := by
    rw [identifySequences_mem_keys]
    exact Or.inr ((mem_datasetKeys dataset L _).mpr ⟨t, ht, i, hi, rfl⟩)
  cases hf : find (identifySequences dataset m₀ L s).1 (sequenceStr (slice t i (i + L))) with
  | none => exact absurd hk ((find_eq_none_iff _ _).mp hf)
  | some c => rfl

/-- C17: the dictionary returned by `identifySequences` for length `L` has the key of
every length-`L` window of the dataset; and when a dictionary has them all, a
`replaceSequences` pass with that `L` (`L ≥ 1`) over that dataset rewrites every
transaction of `n` tokens to `n / L` code tokens, the `j`-th being the code of the
window at offset `j * L`, followed by its last `n mod L` tokens unchanged, and every
cursor at which a code is written is a multiple of `L`. -/
theorem replaceSequences_blocks :
    (∀ (dataset : Dataset) (L : Nat) (m₀ : SequenceMap) (s : Int),
      CoversWindows dataset L (identifySequences dataset m₀ L s).1) ∧
    (∀ (dataset : Dataset) (m : SequenceMap) (L : Nat) (used : UsedSet),
      1 ≤ L → CoversWindows dataset L m →
        ∃ out used', replaceSequences dataset m L used = .ok (out, used') ∧
          out = dataset.map (greedyRewrite m L) ∧
          ∀ t ∈ dataset,
            (∃ codes : List Int,
              greedyRewrite m L t = codes ++ t.drop (t.length - t.length % L) ∧
              codes.length = t.length / L ∧
              ∀ (j : Nat) (hj : j < codes.length),
                find m (sequenceStr (slice t (j * L) (j * L + L))) =
                  some (codes.get ⟨j, hj⟩)) ∧
            (∀ a c, EmitsCode m L t a c → L ∣ a)) := by
  refine ⟨coversWindows_identifySequences, ?_⟩
  intro dataset m L used hL hcov
  obtain ⟨used', hr, _⟩ := replaceSequences_spec m L hL dataset used
  refine ⟨_, used', hr, rfl, ?_⟩
  intro t ht
  constructor
  · obtain ⟨codes, hg, hcl, hidx⟩ := greedyFrom_blocks m L hL t.length t le_rfl (hcov t ht)
    refine ⟨codes, ?_, hcl, hidx⟩
    have hmod : t.length / L * L = t.length - t.length % L := by
      have := Nat.div_add_mod t.length L
      rw [Nat.mul_comm] at this
      omega
    rw [← hmod]
    exact hg
  · intro a c hemit
    obtain ⟨ha, hc⟩ := (emitsCode_iff m L t a c).mp hemit
    exact matched_cursor_multiple m L t (hcov t ht) _ 0 (dvd_zero L) a ha (by rw [hc]; rfl)

theorem replaceSequences_blocks_witness :
    ∃ out used', replaceSequences [[1, 2, 3, 4, 5, 6, 7]]
        (identifySequences [[1, 2, 3, 4, 5, 6, 7]] [] 3 0).1 3 [] = .ok (out, used') ∧
      out = [[1, 2, 3, 4, 5, 6, 7]].map
        (greedyRewrite (identifySequences [[1, 2, 3, 4, 5, 6, 7]] [] 3 0).1 3) ∧
      ∀ t ∈ [[1, 2, 3, 4, 5, 6, (7 : Int)]],
        (∃ codes : List Int,
          greedyRewrite (identifySequences [[1, 2, 3, 4, 5, 6, 7]] [] 3 0).1 3 t =
            codes ++ t.drop (t.length - t.length % 3) ∧
          codes.length = t.length / 3 ∧
          ∀ (j : Nat) (hj : j < codes.length),
            find (identifySequences [[1, 2, 3, 4, 5, 6, 7]] [] 3 0).1
              (sequenceStr (slice t (j * 3) (j * 3 + 3))) = some (codes.get ⟨j, hj⟩)) ∧
        (∀ a c, EmitsCode (identifySequences [[1, 2, 3, 4, 5, 6, 7]] [] 3 0).1 3 t a c →
          3 ∣ a) :=
  replaceSequences_blocks.2 [[1, 2, 3, 4, 5, 6, 7]]
    (identifySequences [[1, 2, 3, 4, 5, 6, 7]] [] 3 0).1 3 [] (by decide)
    (replaceSequences_blocks.1 [[1, 2, 3, 4, 5, 6, 7]] 3 [] 0)

/-! ## Faults and termination of the cursor loop -/

theorem replaceLoop_fault (m : SequenceMap) (L : Nat) (items : List Int) :
    ∀ (fuel : Nat) (st : LoopState) (e : Fault),
      replaceLoop m L items fuel st = .error e → e = Fault.fuel := by
  intro fuel
  induction fuel with
  | zero =>
    intro st e h
    simp only [replaceLoop, Except.error.injEq] at h
    exact h.symm
  | succ f ih =>
    intro st e h
    rw [replaceLoop_succ] at h
    by_cases hlt : st.i < items.length
    · rw [if_pos hlt] at h; exact ih _ e h
    · rw [if_neg hlt] at h; cases h

/-- C18: for every dictionary, every `L ≥ 1` and every dataset `replaceSequences`
raises nothing: an iteration of the cursor loop below the end of the transaction
always yields a state (the lookup `at` and the window slice never fail), a window
whose key is absent is written as the literal token at the cursor, the only way the
loop can stop without a result is by exhausting its fuel, and the pass over the
dataset returns. -/
theorem replaceSequences_no_fault (m : SequenceMap) (L : Nat) (hL : 1 ≤ L) :
    (∀ (items : List Int) (st : LoopState), st.i < items.length →
      ∃ st', replaceStep m L items st = .ok st' ∧
        (st.i + L ≤ items.length →
          find m (sequenceStr (slice items st.i (st.i + L))) = none →
            st'.i = st.i + 1 ∧ st'.out = st.out ++ [items.getD st.i 0] ∧
              st'.used = st.used)) ∧
    (∀ (items : List Int) (fuel : Nat) (st : LoopState) (e : Fault),
      replaceLoop m L items fuel st = .error e → e = Fault.fuel) ∧
    (∀ (dataset : Dataset) (used : UsedSet),
      ∃ r, replaceSequences dataset m L used = .ok r) := by
  refine ⟨?_, replaceLoop_fault m L, ?_⟩
  · intro items st hlt
    refine ⟨stepState m L items st, replaceStep_eq m L items st hlt, ?_⟩
    intro hw hnone
    have hm : matchAt m L items st.i = none := by rw [matchAt, if_pos hw, hnone]
    rw [stepState_none m L items st hm]
    exact ⟨rfl, rfl, rfl⟩
  · intro dataset used
    obtain ⟨used', hr, _⟩ := replaceSequences_spec m L hL dataset used
    exact ⟨_, hr⟩

theorem replaceSequences_no_fault_witness :
    ∃ st', replaceStep [("1,2,3,", 0)] 3 [4, 1, 2, 3] ⟨0, [], []⟩ = .ok st' ∧
      (0 + 3 ≤ [4, 1, 2, (3 : Int)].length →
        find [("1,2,3,", 0)] (sequenceStr (slice [4, 1, 2, 3] 0 (0 + 3))) = none →
          st'.i = 0 + 1 ∧ st'.out = [] ++ [[4, 1, 2, (3 : Int)].getD 0 0] ∧ st'.used = []) :=
  (replaceSequences_no_fault [("1,2,3,", 0)] 3 (by decide)).1 [4, 1, 2, 3] ⟨0, [], []⟩
    (by decide)

theorem replaceLoop_stuck (m : SequenceMap) (items : List Int) (c : Int)
    (hc : find m (sequenceStr []) = some c) :
    ∀ (fuel : Nat) (st : LoopState), st.i < items.length →
      replaceLoop m 0 items fuel st = .error .fuel := by
  intro fuel
  induction fuel with
  | zero => intro st _; rfl
  | succ f ih =>
    intro st hlt
    have hm : matchAt m 0 items st.i = some c := by
      have hs : slice items st.i (st.i + 0) = [] := by simp [slice]
      rw [matchAt, if_pos (by omega), hs, hc]
    rw [replaceLoop_succ, if_pos hlt, stepState_some m 0 items st c hm]
    exact ih _ (by simpa using hlt)

/-- C19: for `L ≥ 1` every iteration of the cursor loop moves the cursor forward, by
`L` on a match and by `1` otherwise, and not past the end `n`, so the loop started at
a cursor `i ≤ n` reaches `n` within `n - i` iterations and `replaceSequences`
returns for every dataset; with `L = 0` and an entry for the empty key a match leaves
the cursor where it is and the loop exhausts every fuel. -/
theorem replaceLoop_terminates (m : SequenceMap) (items : List Int) :
    (∀ (L : Nat) (st : LoopState), 1 ≤ L → st.i < items.length →
      ∃ st', replaceStep m L items st = .ok st' ∧
        st'.i = st.i + (if (matchAt m L items st.i).isSome then L else 1) ∧
        st.i < st'.i ∧ st'.i ≤ items.length) ∧
    (∀ (L fuel : Nat) (st : LoopState), 1 ≤ L → st.i ≤ items.length →
      items.length - st.i < fuel →
        ∃ st', replaceLoop m L items fuel st = .ok st' ∧ st'.i = items.length) ∧
    (∀ (L : Nat) (dataset : Dataset) (used : UsedSet), 1 ≤ L →
      ∃ r, replaceSequences dataset m L used = .ok r) ∧
    (∀ (c : Int) (fuel : Nat) (st : LoopState), find m (sequenceStr []) = some c →
      st.i < items.length → replaceLoop m 0 items fuel st = .error .fuel) := by
  refine ⟨?_, ?_, ?_, ?_⟩
  · intro L st hL hlt
    refine ⟨stepState m L items st, replaceStep_eq m L items st hlt, ?_, ?_, ?_⟩
    · rw [stepState_i]; rfl
    · rw [stepState_i]
      have := widthAt_pos m L hL items st.i
      omega
    · rw [stepState_i]; exact widthAt_le m L items st.i hlt
  · intro L fuel st hL hi hf
    obtain ⟨u, hu⟩ := replaceLoop_out m L hL items fuel st hi hf
    exact ⟨_, hu, rfl⟩
  · intro L dataset used hL
    obtain ⟨used', hr, _⟩ := replaceSequences_spec m L hL dataset used
    exact ⟨_, hr⟩
  · intro c fuel st hc hlt
    exact replaceLoop_stuck m items c hc fuel st hlt

theorem replaceLoop_terminates_witness :
    (∃ st', replaceLoop [("1,2,3,", 0)] 3 [4, 1, 2, 3, 5] 6 ⟨0, [], []⟩ = .ok st' ∧
      st'.i = [4, 1, 2, 3, (5 : Int)].length) ∧
    replaceLoop [("", 4)] 0 [7] 1000 ⟨0, [], []⟩ = .error .fuel :=
  ⟨(replaceLoop_terminates [("1,2,3,", 0)] [4, 1, 2, 3, 5]).2.1 3 6 ⟨0, [], []⟩
      (by decide) (by decide) (by decide),
    (replaceLoop_terminates [("", 4)] [7]).2.2.2 4 1000 ⟨0, [], []⟩ (by decide) (by decide)⟩

/-! ## The size report -/

/-- C20: on the one-transaction dataset `9 9 9` the pipeline leaves a dictionary file
of 9 bytes and a dataset file of 3 bytes; with the 6 bytes of the input the printed
size reduction is `2 ^ 64 - 6`, not the integer `6 - (9 + 3) = -6`. -/
theorem analyzeSizeReduction_wraps :
    ∃ r, mainPipeline [[9, 9, 9]] = .ok r ∧
      mapFileSize r.sequenceMap = 9 ∧ datasetFileSize r.updated = 3 ∧
      (analyzeSizeReduction 6 9 3).reducedSize = 12 ∧
      (analyzeSizeReduction 6 9 3).sizeReduction = 18446744073709551610 ∧
      ((analyzeSizeReduction 6 9 3).sizeReduction : Int) ≠ (6 : Int) - ((9 : Int) + 3) :=
  ⟨⟨[[9, 9, 9]], [[9, 9, 9]], [[0]], ["9,9,9,"], [("9,9,9,", 0)]⟩,
    by rfl, by decide, by decide, by decide, by decide, by decide⟩

end DMDW
